import Mathlib

/-!
Shallow embedding of the `rust-orderbook` matching engine core
(`src/orderbook/book.rs`, `src/orderbook/orders.rs`, `src/orderbook/types`),
together with theorems settling the specification claims.

Modelling conventions:
* `Price` and `Quantity` (`rust_decimal::Decimal`, exact decimal arithmetic)
  are modelled as `ℚ`; the operations used by the engine (add, subtract,
  `min`, comparison, equality) coincide with rational arithmetic.
* `OrderId` (`uuid::Uuid`) has two generators in the source:
  `create_order_id` (time-ordered v7, never collides) and
  `create_id_from_bytes` (deterministic v5 hash of the price's decimal
  string).  The two generators can never collide with each other (distinct
  UUID version fields), so ids are modelled as a sum: `fresh n` for the
  n-th time-ordered id and `fromBytes p` for the id derived from a price
  (each `ℚ` value corresponds to one decimal string).
* Timestamps carry no engine semantics (no claim mentions them) and are
  omitted from the state.
* `HashMap`/`SparseVec` keyed state is modelled by association lists with
  duplicate-free keys maintained by construction; `VecDeque` by `List`
  (`pop_front` = head, `push_front` = cons, `push_back` = append).
-/

/-- `Side` from `types/side.rs`. -/
inductive Side where
  | ask
  | bid
deriving DecidableEq, Repr

/-- `Side::opposite`. -/
def Side.opposite : Side → Side
  | .ask => .bid
  | .bid => .ask

/-- Order identifiers: `fresh n` models the n-th `create_order_id()` (UUID v7,
time-ordered unique); `fromBytes p` models
`create_id_from_bytes(p.to_string().as_bytes())` (UUID v5). -/
inductive OrderId where
  | fresh (n : ℕ)
  | fromBytes (p : ℚ)
deriving DecidableEq, Repr

/-- `OrderType` from `orders.rs`. -/
inductive OrderType where
  | market
  | limit (p : ℚ)
  | ioc (p : ℚ)
  | fok (p : ℚ)
  | systemLevel (p : ℚ)
deriving DecidableEq, Repr

/-- `OrderType::generate_id`, threaded through the fresh-id counter:
`Market`/`Limit`/`IOC`/`FOK` draw a fresh time-ordered id, `SystemLevel p`
derives the deterministic id from the price. -/
def OrderType.generateId : OrderType → ℕ → OrderId × ℕ
  | .market, n => (OrderId.fresh n, n + 1)
  | .limit _, n => (OrderId.fresh n, n + 1)
  | .ioc _, n => (OrderId.fresh n, n + 1)
  | .fok _, n => (OrderId.fresh n, n + 1)
  | .systemLevel p, n => (OrderId.fromBytes p, n)

/-- `Fill` from `orders.rs` (timestamp omitted). -/
structure Fill where
  qty : ℚ
  price : ℚ
  order_id : OrderId
deriving DecidableEq, Repr

/-- `OrderStatus` from `orders.rs`. -/
inductive OrderStatus where
  | open_
  | filled
  | partiallyFilled
  | cancelled
deriving DecidableEq, Repr

/-- `OrderRequest` from `orders.rs`. -/
structure OrderRequest where
  id : OrderId
  side : Side
  qty : ℚ
  order_type : OrderType
deriving DecidableEq, Repr

/-- `OrderRequest::new`: the id is derived from `order_type.generate_id()`. -/
def OrderRequest.make (side : Side) (qty : ℚ) (ot : OrderType) (ctr : ℕ) :
    OrderRequest × ℕ :=
  let g := ot.generateId ctr
  (⟨g.1, side, qty, ot⟩, g.2)

/-- `TradeOrder` from `orders.rs` (timestamps omitted). -/
structure TradeOrder where
  id : OrderId
  side : Side
  remaining_qty : ℚ
  initial_qty : ℚ
  fills : List Fill
  order_type : OrderType
deriving DecidableEq, Repr

/-- `impl From<OrderRequest> for TradeOrder`. -/
def TradeOrder.fromRequest (r : OrderRequest) : TradeOrder :=
  ⟨r.id, r.side, r.qty, r.qty, [], r.order_type⟩

/-- `TradeOrder::filled_by`: `self` is the resting (maker) order, the argument
the incoming order; both are reduced by the minimum of the two remaining
quantities and each records a `Fill` naming the other.  Returns
(updated maker, updated incoming, fill quantity). -/
def TradeOrder.filled_by (self other : TradeOrder) (price : ℚ) :
    TradeOrder × TradeOrder × ℚ :=
  let fill_qty := min other.remaining_qty self.remaining_qty
  ({ self with
      remaining_qty := self.remaining_qty - fill_qty,
      fills := self.fills ++ [⟨fill_qty, price, other.id⟩] },
   { other with
      remaining_qty := other.remaining_qty - fill_qty,
      fills := other.fills ++ [⟨fill_qty, price, self.id⟩] },
   fill_qty)

/-- `TradeOrder::cancel`: reduce `remaining_qty` by `min qty remaining_qty`. -/
def TradeOrder.cancel (self : TradeOrder) (qty : ℚ) : TradeOrder :=
  { self with remaining_qty := self.remaining_qty - min qty self.remaining_qty }

/-- `TradeOrder::mergable`. -/
def TradeOrder.mergable (self other : TradeOrder) : Prop :=
  self.side = other.side ∧ self.order_type = other.order_type

instance (a b : TradeOrder) : Decidable (a.mergable b) := by
  unfold TradeOrder.mergable; infer_instance

/-- `TradeOrder::merge`: when mergable, quantities are added and fills
appended and `None` is returned; otherwise `self` is untouched and the other
order is handed back (`Some`), which makes the caller's `assert_eq!` fire. -/
def TradeOrder.merge (self other : TradeOrder) : TradeOrder × Option TradeOrder :=
  if self.mergable other then
    ({ self with
        remaining_qty := self.remaining_qty + other.remaining_qty,
        initial_qty := self.initial_qty + other.initial_qty,
        fills := self.fills ++ other.fills }, none)
  else (self, some other)

/-- `TradeExecution` from `orders.rs` (timestamp omitted). -/
structure TradeExecution where
  qty : ℚ
  price : ℚ
  taker_order_id : OrderId
  maker_order_id : OrderId
  take_side : Side
deriving DecidableEq, Repr

/-- `OrderResult` from `orders.rs`. -/
structure OrderResult where
  trade_id : OrderId
  side : Side
  order_type : OrderType
  initial_qty : ℚ
  remaining_qty : ℚ
  fills : List Fill
  status : OrderStatus
deriving DecidableEq, Repr

/-- `impl From<TradeOrder> for OrderResult`: the status-derivation table. -/
def OrderResult.fromTrade (t : TradeOrder) : OrderResult :=
  let status :=
    if t.remaining_qty = 0 then OrderStatus.filled
    else if t.fills.isEmpty then
      match t.order_type with
      | .market => OrderStatus.cancelled
      | .limit _ => OrderStatus.open_
      | .ioc _ => OrderStatus.cancelled
      | .fok _ => OrderStatus.cancelled
      | .systemLevel _ => OrderStatus.open_
    else
      match t.order_type with
      | .market => OrderStatus.partiallyFilled
      | .limit _ => OrderStatus.partiallyFilled
      | .ioc _ => OrderStatus.partiallyFilled
      | .fok _ => OrderStatus.cancelled
      | .systemLevel _ => OrderStatus.partiallyFilled
  ⟨t.id, t.side, t.order_type, t.initial_qty, t.remaining_qty, t.fills, status⟩

/-- `impl From<OrderRequest> for OrderResult` (used by the FOK early
return): status `Cancelled`, no fills. -/
def OrderResult.fromRequest (r : OrderRequest) : OrderResult :=
  ⟨r.id, r.side, r.order_type, r.qty, r.qty, [], OrderStatus.cancelled⟩

/-- `OrderResult::cancelled`. -/
def OrderResult.cancelledOf (t : TradeOrder) : OrderResult :=
  ⟨t.id, t.side, t.order_type, t.initial_qty, t.remaining_qty, t.fills,
    OrderStatus.cancelled⟩

/-! ### Finite-map and list helpers (model of `HashMap` / `SparseVec` / `VecDeque`) -/

/-- Lookup in an association list (model of `HashMap::get` / `SparseVec::get`). -/
def alookup {K V : Type} [DecidableEq K] (k : K) : List (K × V) → Option V
  | [] => none
  | e :: rest => if e.1 = k then some e.2 else alookup k rest

/-- Remove a key (model of `HashMap::remove` / `SparseVec::remove`). -/
def aerase {K V : Type} [DecidableEq K] (k : K) : List (K × V) → List (K × V)
  | [] => []
  | e :: rest => if e.1 = k then aerase k rest else e :: aerase k rest

/-- Insert/replace a binding (model of `HashMap::insert`). -/
def ainsert {K V : Type} [DecidableEq K] (k : K) (v : V) (m : List (K × V)) :
    List (K × V) :=
  (k, v) :: aerase k m

/-- Update the value at a key in place (model of `get_mut` followed by a
mutation). -/
def amodify {K V : Type} [DecidableEq K] (k : K) (f : V → V) :
    List (K × V) → List (K × V)
  | [] => []
  | e :: rest => if e.1 = k then (e.1, f e.2) :: rest else e :: amodify k f rest

/-- Remove the first element satisfying `p`, returning it and the remainder
(model of `iter().position(..)` + `remove(i)` on a `VecDeque`). -/
def extractFirst {α : Type} (p : α → Bool) : List α → Option (α × List α)
  | [] => none
  | x :: xs =>
    if p x then some (x, xs)
    else match extractFirst p xs with
      | none => none
      | some r => some (r.1, x :: r.2)

/-- Replace the first element satisfying `p` by `f` of it (model of
`iter_mut().find(..)` + in-place mutation). -/
def replaceFirst {α : Type} (p : α → Bool) (f : α → α) : List α → List α
  | [] => []
  | x :: xs => if p x then f x :: xs else x :: replaceFirst p f xs

/-- Insert into an ascending list (helper for sorted key iteration). -/
def sortedInsert (p : ℚ) : List ℚ → List ℚ
  | [] => [p]
  | q :: qs => if p ≤ q then p :: q :: qs else q :: sortedInsert p qs

/-- Ascending sort of a price list (model of iterating a `BTreeSet`). -/
def sortAsc (l : List ℚ) : List ℚ := l.foldr sortedInsert []

/-- Total remaining quantity of a price level (the fold in
`HalfBook::get_total_qty`). -/
def levelQty (lvl : List TradeOrder) : ℚ :=
  (lvl.map TradeOrder.remaining_qty).sum

/-! ### `HalfBook` (`book.rs`) -/

/-- `HalfBook`: one side's resting liquidity.  The source keeps a
`BTreeSet<Price>` and a `SparseVec<Price, PriceLevel>` whose key sets are
updated together on every path; both are modelled by the single
association list `levels`. -/
structure HalfBook where
  s : Side
  levels : List (ℚ × List TradeOrder)
deriving DecidableEq, Repr

/-- `HalfBook::new`. -/
def HalfBook.new (s : Side) : HalfBook := ⟨s, []⟩

/-- Occupied prices (the `BTreeSet` contents). -/
def HalfBook.keys (hb : HalfBook) : List ℚ := hb.levels.map Prod.fst

/-- `HalfBook::add_order`: append to the deque at `price`, creating the
level if absent. -/
def HalfBook.add_order (hb : HalfBook) (price : ℚ) (o : TradeOrder) : HalfBook :=
  match alookup price hb.levels with
  | some _ => { hb with levels := amodify price (fun lvl => lvl ++ [o]) hb.levels }
  | none => { hb with levels := ainsert price [o] hb.levels }

/-- `HalfBook::remove_order`: linear scan of the level for the id; the level
is removed entirely when it becomes empty. -/
def HalfBook.remove_order (hb : HalfBook) (price : ℚ) (oid : OrderId) :
    Option TradeOrder × HalfBook :=
  match alookup price hb.levels with
  | none => (none, hb)
  | some lvl =>
    match extractFirst (fun o => decide (o.id = oid)) lvl with
    | none => (none, hb)
    | some r =>
      if r.2.isEmpty then (some r.1, { hb with levels := aerase price hb.levels })
      else (some r.1, { hb with levels := amodify price (fun _ => r.2) hb.levels })

/-- The `while` loop of `HalfBook::match_order` on one level's deque: pop the
front order, fill the lesser of the two remaining quantities, emit a
`TradeExecution`; a maker with residual goes back to the *front*, an
exhausted maker is discarded; stop when the incoming order is exhausted or
the level is empty.  Returns (incoming after, deque after, executions). -/
def matchLevel (s : Side) (price : ℚ) (inc : TradeOrder) :
    List TradeOrder → TradeOrder × List TradeOrder × List TradeExecution
  | [] => (inc, [], [])
  | o :: rest =>
    if inc.remaining_qty ≤ 0 then (inc, o :: rest, [])
    else
      let r := o.filled_by inc price
      let e : TradeExecution := ⟨r.2.2, price, r.2.1.id, r.1.id, s.opposite⟩
      if 0 < r.1.remaining_qty then (r.2.1, r.1 :: rest, [e])
      else
        let r2 := matchLevel s price r.2.1 rest
        (r2.1, r2.2.1, e :: r2.2.2)

/-- `HalfBook::match_order`: run the level loop at `price`; if the level ends
up empty it is removed from the map and the occupied-price set. -/
def HalfBook.match_order (hb : HalfBook) (inc : TradeOrder) (price : ℚ) :
    TradeOrder × HalfBook × List TradeExecution :=
  match alookup price hb.levels with
  | none => (inc, hb, [])
  | some lvl =>
    let r := matchLevel hb.s price inc lvl
    if r.2.1.isEmpty then
      (r.1, { hb with levels := aerase price hb.levels }, r.2.2)
    else
      (r.1, { hb with levels := amodify price (fun _ => r.2.1) hb.levels }, r.2.2)

/-- `HalfBook::iter_prices`: occupied prices in priority order (ascending for
asks, descending for bids). -/
def HalfBook.iter_prices (hb : HalfBook) : List ℚ :=
  match hb.s with
  | .ask => sortAsc hb.keys
  | .bid => (sortAsc hb.keys).reverse

/-- `HalfBook::get_total_qty`. -/
def HalfBook.get_total_qty (hb : HalfBook) (price : ℚ) : Option ℚ :=
  (alookup price hb.levels).map levelQty

/-- `HalfBook::get_available_quantity`: sum of per-price totals over prices in
priority order while they stay within the target window. -/
def HalfBook.get_available_quantity (hb : HalfBook) (target : ℚ) : ℚ :=
  ((hb.iter_prices.takeWhile (fun p =>
      match hb.s with
      | .ask => decide (p ≤ target)
      | .bid => decide (target ≤ p))).map
    (fun p => (hb.get_total_qty p).getD 0)).sum

/-- `HalfBook::get_order`. -/
def HalfBook.get_order (hb : HalfBook) (price : ℚ) (oid : OrderId) :
    Option TradeOrder :=
  (alookup price hb.levels).bind fun lvl =>
    lvl.find? (fun o => decide (o.id = oid))

/-- `HalfBook::get_order_mut` followed by an in-place mutation `f`. -/
def HalfBook.modifyOrder (hb : HalfBook) (price : ℚ) (oid : OrderId)
    (f : TradeOrder → TradeOrder) : HalfBook :=
  { hb with
      levels := amodify price (replaceFirst (fun o => decide (o.id = oid)) f)
        hb.levels }

/-- `HalfBook::get_order_count`: total number of resting orders on this side. -/
def HalfBook.get_order_count (hb : HalfBook) : ℕ :=
  (hb.levels.map (fun e => e.2.length)).sum

/-- All orders resting in a half-book. -/
def HalfBook.allOrders (hb : HalfBook) : List TradeOrder :=
  (hb.levels.map Prod.snd).flatten

/-! ### `OrderBook` (`book.rs`) -/

/-- `OrderBook`: two half-books plus the order locator
`OrderId → (Side, Price)`. -/
structure OrderBook where
  asks : HalfBook
  bids : HalfBook
  order_loc : List (OrderId × Side × ℚ)
deriving DecidableEq, Repr

/-- `OrderBook::default`. -/
def OrderBook.empty : OrderBook := ⟨HalfBook.new .ask, HalfBook.new .bid, []⟩

/-- `OrderBook::get_book` / `get_mut_book`. -/
def OrderBook.getBook (ob : OrderBook) : Side → HalfBook
  | .ask => ob.asks
  | .bid => ob.bids

/-- Write back one half-book (the effect of mutating through
`get_mut_book` / `get_mut_opposite_book`). -/
def OrderBook.setBook (ob : OrderBook) : Side → HalfBook → OrderBook
  | .ask, hb => { ob with asks := hb }
  | .bid, hb => { ob with bids := hb }

/-- `OrderBook::get_order`: locator lookup, then search the located level. -/
def OrderBook.get_order (ob : OrderBook) (oid : OrderId) : Option TradeOrder :=
  (alookup oid ob.order_loc).bind fun sp => (ob.getBook sp.1).get_order sp.2 oid

/-- `OrderBook::get_order_mut` followed by an in-place mutation `f`. -/
def OrderBook.modifyOrder (ob : OrderBook) (oid : OrderId)
    (f : TradeOrder → TradeOrder) : OrderBook :=
  match alookup oid ob.order_loc with
  | none => ob
  | some sp => ob.setBook sp.1 ((ob.getBook sp.1).modifyOrder sp.2 oid f)

/-- `OrderBook::delete_order`: remove the locator entry, then remove the
order from its level; status `Cancelled`.  (The locator entry is gone even
when the order is not found in the level, mirroring the `?` after
`order_loc.remove`.) -/
def OrderBook.delete_order (ob : OrderBook) (oid : OrderId) :
    Option OrderResult × OrderBook :=
  match alookup oid ob.order_loc with
  | none => (none, ob)
  | some sp =>
    let ob1 : OrderBook := { ob with order_loc := aerase oid ob.order_loc }
    let r := (ob1.getBook sp.1).remove_order sp.2 oid
    match r.1 with
    | none => (none, ob1.setBook sp.1 r.2)
    | some o => (some (OrderResult.cancelledOf o), ob1.setBook sp.1 r.2)

/-- `OrderBook::cancel_order`: reduce the resting order in place; if its
remaining quantity reaches zero behave as `delete_order`, otherwise return
a result snapshot of the reduced order. -/
def OrderBook.cancel_order (ob : OrderBook) (oid : OrderId) (qty : ℚ) :
    Option OrderResult × OrderBook :=
  match ob.get_order oid with
  | none => (none, ob)
  | some o =>
    let o' := o.cancel qty
    let ob' := ob.modifyOrder oid (fun _ => o')
    if o'.remaining_qty = 0 then ob'.delete_order oid
    else (some (OrderResult.fromTrade o'), ob')

/-- `OrderBook::add_limit_order`: insert into the locator (the source
asserts the id was absent) and append to the half-book level. -/
def OrderBook.add_limit_order (ob : OrderBook) (side : Side) (price : ℚ)
    (o : TradeOrder) : OrderBook :=
  let ob1 : OrderBook := { ob with order_loc := ainsert o.id (side, price) ob.order_loc }
  ob1.setBook side ((ob1.getBook side).add_order price o)

/-- `OrderBook::add_system_order`: if an order with the same id is found
through the locator, merge into it (the source asserts the merge is
accepted); otherwise insert as a fresh resting order. -/
def OrderBook.add_system_order (ob : OrderBook) (side : Side) (price : ℚ)
    (o : TradeOrder) : OrderBook :=
  match ob.get_order o.id with
  | some _ => ob.modifyOrder o.id (fun existing => (existing.merge o).1)
  | none =>
    let ob1 : OrderBook := { ob with order_loc := ainsert o.id (side, price) ob.order_loc }
    ob1.setBook side ((ob1.getBook side).add_order price o)

/-- The side-dependent price window in `OrderBook::add_order`'s filter:
a bid takes opposite prices `p ≤ P`, an ask takes `P ≤ p`. -/
def inWindow (side : Side) (lp p : ℚ) : Bool :=
  match side with
  | .bid => decide (p ≤ lp)
  | .ask => decide (lp ≤ p)

/-- The price filter in `OrderBook::add_order`: a `Market` taker takes every
opposite price; the priced types take prices within the window of their
limit price. -/
def matchFilter (t : TradeOrder) (p : ℚ) : Bool :=
  match t.order_type with
  | .market => true
  | .limit lp | .ioc lp | .fok lp | .systemLevel lp => inWindow t.side lp p

/-- The matching loop of `OrderBook::add_order`: fold `match_order` over the
filtered price list, breaking as soon as the taker's remaining quantity is
zero. -/
def matchAll (hb : HalfBook) (inc : TradeOrder) :
    List ℚ → TradeOrder × HalfBook × List TradeExecution
  | [] => (inc, hb, [])
  | p :: ps =>
    let r := hb.match_order inc p
    if r.1.remaining_qty = 0 then r
    else
      let r2 := matchAll r.2.1 r.1 ps
      (r2.1, r2.2.1, r.2.2 ++ r2.2.2)

/-- Steps 2–4 of `OrderBook::add_order`: materialize the `TradeOrder`,
compute the filtered opposite-price list, run the matching loop, write the
opposite half-book back.  Returns (taker after matching, book, executions). -/
def OrderBook.addOrderMatched (ob : OrderBook) (req : OrderRequest) :
    TradeOrder × OrderBook × List TradeExecution :=
  let opp := ob.getBook req.side.opposite
  let t := TradeOrder.fromRequest req
  let prices := opp.iter_prices.filter (matchFilter t)
  let r := matchAll opp t prices
  (r.1, ob.setBook req.side.opposite r.2.1, r.2.2)

/-- The FOK pre-check condition in `OrderBook::add_order`. -/
def fokFails (ob : OrderBook) (req : OrderRequest) : Bool :=
  match req.order_type with
  | .fok p =>
    decide ((ob.getBook req.side.opposite).get_available_quantity p < req.qty)
  | _ => false

/-- `OrderBook::add_order`: FOK pre-check, matching, then disposition of the
residual (`Limit`/`SystemLevel` rest when their price is positive and
quantity remains; `Market`/`IOC`/`FOK` residuals are discarded). -/
def OrderBook.add_order (ob : OrderBook) (req : OrderRequest) :
    OrderResult × List TradeExecution × OrderBook :=
  if fokFails ob req then (OrderResult.fromRequest req, [], ob)
  else
    let r := ob.addOrderMatched req
    let t := r.1
    let ob2 :=
      match t.order_type with
      | .limit p =>
        if 0 < p ∧ 0 < t.remaining_qty then r.2.1.add_limit_order t.side p t
        else r.2.1
      | .systemLevel p =>
        if 0 < p ∧ 0 < t.remaining_qty then r.2.1.add_system_order t.side p t
        else r.2.1
      | _ => r.2.1
    (OrderResult.fromTrade t, r.2.2, ob2)

/-- `OrderBook::get_order_count`: the locator size. -/
def OrderBook.get_order_count (ob : OrderBook) : ℕ := ob.order_loc.length

/-- All orders resting in the book. -/
def OrderBook.allOrders (ob : OrderBook) : List TradeOrder :=
  ob.asks.allOrders ++ ob.bids.allOrders

/-! ### Engine operation sequences -/

/-- One public mutating call on the book. -/
inductive EngineOp where
  | add (side : Side) (qty : ℚ) (ot : OrderType)
  | cancel (oid : OrderId) (qty : ℚ)
  | delete (oid : OrderId)
deriving DecidableEq, Repr

/-- Book plus the fresh-id counter that models `create_order_id`. -/
structure EngineState where
  book : OrderBook
  ctr : ℕ
deriving DecidableEq, Repr

/-- Execute one operation: `add` builds the request through
`OrderRequest::new` (id from `generate_id`) and calls `add_order`. -/
def EngineState.step (s : EngineState) : EngineOp → EngineState
  | .add side qty ot =>
    let g := ot.generateId s.ctr
    ⟨(s.book.add_order ⟨g.1, side, qty, ot⟩).2.2, g.2⟩
  | .cancel oid qty => ⟨(s.book.cancel_order oid qty).2, s.ctr⟩
  | .delete oid => ⟨(s.book.delete_order oid).2, s.ctr⟩

/-- The initial engine state: empty book, counter at zero. -/
def EngineState.init : EngineState := ⟨OrderBook.empty, 0⟩

/-- Run a sequence of operations from the empty book. -/
def runOps (ops : List EngineOp) : EngineState :=
  ops.foldl EngineState.step EngineState.init

/-- Well-formed input (§7 of the spec: quantities are the caller's
responsibility): submitted and cancelled quantities are non-negative. -/
def EngineOp.wf : EngineOp → Prop
  | .add _ qty _ => 0 ≤ qty
  | .cancel _ qty => 0 ≤ qty
  | .delete _ => True

instance (op : EngineOp) : Decidable op.wf := by
  cases op <;> (unfold EngineOp.wf; infer_instance)

/-- Sum of fill quantities of an order's fill history. -/
def sumFills (fs : List Fill) : ℚ := (fs.map Fill.qty).sum

/-! ### Basic lemmas about the map and list helpers -/

theorem alookup_mem {K V : Type} [DecidableEq K] {k : K} {v : V}
    {m : List (K × V)} (h : alookup k m = some v) : (k, v) ∈ m := by
  induction m with
  | nil => simp [alookup] at h
  | cons e rest ih =>
    rw [alookup] at h
    by_cases he : e.1 = k
    · simp [he] at h
      exact List.mem_cons.mpr (Or.inl (by rw [← he, ← h]))
    · simp [he] at h
      exact List.mem_cons_of_mem _ (ih h)

theorem aerase_of_none {K V : Type} [DecidableEq K] {k : K} {m : List (K × V)}
    (h : alookup k m = none) : aerase k m = m := by
  induction m with
  | nil => rfl
  | cons e rest ih =>
    rw [alookup] at h
    by_cases he : e.1 = k
    · simp [he] at h
    · simp [he] at h
      rw [aerase, if_neg he, ih h]

theorem alookup_aerase_self {K V : Type} [DecidableEq K] {k : K}
    {m : List (K × V)} : alookup k (aerase k m) = none := by
  induction m with
  | nil => rfl
  | cons e rest ih =>
    rw [aerase]
    by_cases he : e.1 = k
    · simpa [he]
    · rw [if_neg he, alookup, if_neg he]
      exact ih

theorem alookup_aerase_ne {K V : Type} [DecidableEq K] {k k' : K}
    {m : List (K × V)} (h : k' ≠ k) : alookup k' (aerase k m) = alookup k' m := by
  induction m with
  | nil => rfl
  | cons e rest ih =>
    rw [aerase, alookup]
    by_cases he : e.1 = k
    · rw [if_pos he, ih, if_neg (by rw [he]; exact fun hh => h hh.symm)]
    · rw [if_neg he, alookup]
      by_cases he' : e.1 = k'
      · simp [he']
      · rw [if_neg he', if_neg he', ih]

theorem alookup_ainsert_self {K V : Type} [DecidableEq K] {k : K} {v : V}
    {m : List (K × V)} : alookup k (ainsert k v m) = some v := by
  rw [ainsert, alookup]
  simp

theorem alookup_ainsert_ne {K V : Type} [DecidableEq K] {k k' : K} {v : V}
    {m : List (K × V)} (h : k' ≠ k) :
    alookup k' (ainsert k v m) = alookup k' m := by
  rw [ainsert, alookup, if_neg (fun hh => h hh.symm), alookup_aerase_ne h]

theorem alookup_amodify_self {K V : Type} [DecidableEq K] {k : K} {f : V → V}
    {m : List (K × V)} : alookup k (amodify k f m) = (alookup k m).map f := by
  induction m with
  | nil => rfl
  | cons e rest ih =>
    by_cases he : e.1 = k
    · simp [amodify, alookup, he]
    · simp only [amodify, alookup, if_neg he]
      exact ih

theorem alookup_amodify_ne {K V : Type} [DecidableEq K] {k k' : K} {f : V → V}
    {m : List (K × V)} (h : k' ≠ k) :
    alookup k' (amodify k f m) = alookup k' m := by
  induction m with
  | nil => rfl
  | cons e rest ih =>
    by_cases he : e.1 = k
    · have he' : ¬e.1 = k' := fun hh => h ((hh.symm.trans he).symm ▸ rfl)
      simp only [amodify, if_pos he, alookup, if_neg he']
    · simp only [amodify, if_neg he, alookup]
      by_cases he2 : e.1 = k'
      · simp [he2]
      · simp only [if_neg he2]
        exact ih

theorem mem_aerase {K V : Type} [DecidableEq K] {k : K} {e : K × V}
    {m : List (K × V)} (h : e ∈ aerase k m) : e ∈ m := by
  induction m with
  | nil => simp [aerase] at h
  | cons x rest ih =>
    rw [aerase] at h
    by_cases hx : x.1 = k
    · rw [if_pos hx] at h
      exact List.mem_cons_of_mem _ (ih h)
    · rw [if_neg hx] at h
      rcases List.mem_cons.mp h with h | h
      · exact h ▸ List.mem_cons_self _ _
      · exact List.mem_cons_of_mem _ (ih h)

theorem mem_amodify {K V : Type} [DecidableEq K] {k : K} {f : V → V}
    {e : K × V} {m : List (K × V)} (h : e ∈ amodify k f m) :
    e ∈ m ∨ ∃ x ∈ m, e = (x.1, f x.2) := by
  induction m with
  | nil => simp [amodify] at h
  | cons x rest ih =>
    rw [amodify] at h
    by_cases hx : x.1 = k
    · rw [if_pos hx] at h
      rcases List.mem_cons.mp h with h | h
      · exact Or.inr ⟨x, List.mem_cons_self _ _, h⟩
      · exact Or.inl (List.mem_cons_of_mem _ h)
    · rw [if_neg hx] at h
      rcases List.mem_cons.mp h with h | h
      · exact Or.inl (h ▸ List.mem_cons_self _ _)
      · rcases ih h with h | ⟨y, hy, hey⟩
        · exact Or.inl (List.mem_cons_of_mem _ h)
        · exact Or.inr ⟨y, List.mem_cons_of_mem _ hy, hey⟩

theorem length_ainsert_of_none {K V : Type} [DecidableEq K] {k : K} {v : V}
    {m : List (K × V)} (h : alookup k m = none) :
    (ainsert k v m).length = m.length + 1 := by
  rw [ainsert, List.length_cons, aerase_of_none h]

theorem mem_sortedInsert {x q : ℚ} {l : List ℚ} :
    x ∈ sortedInsert q l ↔ x = q ∨ x ∈ l := by
  induction l with
  | nil => simp [sortedInsert]
  | cons y ys ih =>
    rw [sortedInsert]
    by_cases h : q ≤ y
    · simp [h]
    · rw [if_neg h]
      simp only [List.mem_cons, ih]
      tauto

theorem mem_sortAsc {x : ℚ} {l : List ℚ} : x ∈ sortAsc l ↔ x ∈ l := by
  induction l with
  | nil => simp [sortAsc]
  | cons y ys ih =>
    show x ∈ sortedInsert y (sortAsc ys) ↔ _
    rw [mem_sortedInsert, ih]
    simp

theorem mem_iter_prices {p : ℚ} {hb : HalfBook} :
    p ∈ hb.iter_prices ↔ p ∈ hb.keys := by
  rw [HalfBook.iter_prices]
  cases hb.s
  · exact mem_sortAsc
  · rw [List.mem_reverse]
    exact mem_sortAsc

theorem getBook_setBook_self {ob : OrderBook} {s : Side} {hb : HalfBook} :
    (ob.setBook s hb).getBook s = hb := by
  cases s <;> rfl

theorem getBook_setBook_ne {ob : OrderBook} {s s' : Side} {hb : HalfBook}
    (h : s' ≠ s) : (ob.setBook s hb).getBook s' = ob.getBook s' := by
  cases s <;> cases s' <;> first | rfl | exact absurd rfl h

theorem setBook_order_loc {ob : OrderBook} {s : Side} {hb : HalfBook} :
    (ob.setBook s hb).order_loc = ob.order_loc := by
  cases s <;> rfl

theorem setBook_getBook_self {ob : OrderBook} {s : Side} :
    ob.setBook s (ob.getBook s) = ob := by
  cases s <;> rfl

theorem opposite_ne {s : Side} : s.opposite ≠ s := by
  cases s <;> simp [Side.opposite]

/-!
`Rat.add` and `Rat.sub` are `@[irreducible]` in the library, which blocks
elaborator-side evaluation of concrete book computations; the engine only
ever adds and subtracts quantities, so we make the two operations
semireducible for the concrete evaluations below.
-/

attribute [local semireducible] Rat.add Rat.sub

/-! ### Claim C3: status derivation -/

/-- C3.  Status derivation: converting a materialized `TradeOrder` to an
`OrderResult` yields `Filled` when `remaining_qty = 0` (every order type);
with `remaining_qty > 0` and no fills it yields `Cancelled` for `Market`,
`Open` for `Limit`, `Cancelled` for `IOC`, `Cancelled` for `FOK`, `Open`
for `SystemLevel`; with `remaining_qty > 0` and fills present it yields
`PartiallyFilled` for `Market`, `Limit`, `IOC`, `SystemLevel` and
`Cancelled` for `FOK`. -/
theorem status_derivation (t : TradeOrder) :
    (t.remaining_qty = 0 → (OrderResult.fromTrade t).status = .filled) ∧
    (0 < t.remaining_qty → t.fills = [] →
      (OrderResult.fromTrade t).status =
        match t.order_type with
        | .market => .cancelled
        | .limit _ => .open_
        | .ioc _ => .cancelled
        | .fok _ => .cancelled
        | .systemLevel _ => .open_) ∧
    (0 < t.remaining_qty → t.fills ≠ [] →
      (OrderResult.fromTrade t).status =
        match t.order_type with
        | .market => .partiallyFilled
        | .limit _ => .partiallyFilled
        | .ioc _ => .partiallyFilled
        | .fok _ => .cancelled
        | .systemLevel _ => .partiallyFilled) := by
  refine ⟨fun h0 => ?_, fun hpos hemp => ?_, fun hpos hne => ?_⟩
  · simp [OrderResult.fromTrade, h0]
  · have hne : ¬t.remaining_qty = 0 := by positivity
    simp only [OrderResult.fromTrade, if_neg hne, hemp, List.isEmpty_nil, if_pos]
  · have hne0 : ¬t.remaining_qty = 0 := by positivity
    have he : t.fills.isEmpty = false := by
      cases hf : t.fills with
      | nil => exact absurd hf hne
      | cons a l => rfl
    simp only [OrderResult.fromTrade, if_neg hne0, he, Bool.false_eq_true,
      if_neg, ite_false]

/-- C3 witness: the three rows of the table evaluated at concrete orders. -/
theorem status_derivation_witness :
    (OrderResult.fromTrade ⟨.fresh 0, .ask, 0, 5,
      [⟨5, 10, .fresh 1⟩], .limit 10⟩).status = .filled ∧
    (OrderResult.fromTrade ⟨.fresh 0, .ask, 5, 5, [], .ioc 10⟩).status =
      .cancelled ∧
    (OrderResult.fromTrade ⟨.fresh 0, .ask, 2, 5,
      [⟨3, 10, .fresh 1⟩], .fok 10⟩).status = .cancelled :=
  ⟨(status_derivation _).1 rfl,
   (status_derivation ⟨.fresh 0, .ask, 5, 5, [], .ioc 10⟩).2.1 (by norm_num) rfl,
   (status_derivation ⟨.fresh 0, .ask, 2, 5, [⟨3, 10, .fresh 1⟩], .fok 10⟩).2.2
     (by norm_num) (by simp)⟩

/-! ### Claim C10: id generation -/

/-- C10.  `generate_id` for `SystemLevel P` is a pure function of the price
`P` (each rational value stands for its decimal string): it is independent
of the counter state (hence of time), of the submitting side, and of the
quantity — a `SystemLevel` bid and ask at the same price receive the same
id — while `Market`/`Limit`/`IOC`/`FOK` draw a fresh time-ordered id on
every call, so two successive non-`SystemLevel` generations never
coincide. -/
theorem generate_id_properties (p : ℚ) (n m : ℕ) (s1 s2 : Side) (q1 q2 : ℚ) :
    ((OrderType.systemLevel p).generateId n).1 =
      ((OrderType.systemLevel p).generateId m).1 ∧
    (OrderRequest.make s1 q1 (.systemLevel p) n).1.id =
      (OrderRequest.make s2 q2 (.systemLevel p) m).1.id ∧
    (∀ t1 t2 : OrderType, (∀ q, t1 ≠ .systemLevel q) →
      (∀ q, t2 ≠ .systemLevel q) →
      (t1.generateId n).1 ≠ (t2.generateId (t1.generateId n).2).1) := by
  refine ⟨rfl, rfl, fun t1 t2 h1 h2 => ?_⟩
  have e1 : t1.generateId n = (OrderId.fresh n, n + 1) := by
    cases t1 with
    | systemLevel q => exact absurd rfl (h1 q)
    | market => rfl
    | limit _ => rfl
    | ioc _ => rfl
    | fok _ => rfl
  have e2 : t2.generateId (n + 1) = (OrderId.fresh (n + 1), n + 2) := by
    cases t2 with
    | systemLevel q => exact absurd rfl (h2 q)
    | market => rfl
    | limit _ => rfl
    | ioc _ => rfl
    | fok _ => rfl
  rw [e1]
  simp only [e1, e2]
  intro hcontra
  exact absurd (OrderId.fresh.injEq .. ▸ hcontra) (by omega)

/-- C10 witness: concrete instances of all three parts. -/
theorem generate_id_properties_witness :
    ((OrderType.systemLevel 10).generateId 0).1 =
      ((OrderType.systemLevel 10).generateId 7).1 ∧
    (OrderRequest.make .bid 3 (.systemLevel 10) 0).1.id =
      (OrderRequest.make .ask 99 (.systemLevel 10) 7).1.id ∧
    ((OrderType.market).generateId 4).1 ≠
      ((OrderType.limit 5).generateId ((OrderType.market).generateId 4).2).1 :=
  ⟨(generate_id_properties 10 0 7 .bid .ask 3 99).1,
   (generate_id_properties 10 0 7 .bid .ask 3 99).2.1,
   (generate_id_properties 10 4 0 .bid .ask 0 0).2.2 .market (.limit 5)
     (fun q h => by cases h) (fun q h => by cases h)⟩

/-! ### Claim C2: FOK rejection atomicity -/

/-- C2.  FOK rejection atomicity: whenever an `add_order` call carries order
type `FOK P` and the opposite book's available quantity within `P` is
strictly less than the requested quantity, the call returns status
`Cancelled` with an empty executions vector and leaves the entire book
(both half-books and the locator) unchanged. -/
theorem fok_rejection_atomicity (ob : OrderBook) (req : OrderRequest) (p : ℚ)
    (ht : req.order_type = .fok p)
    (hlt : (ob.getBook req.side.opposite).get_available_quantity p < req.qty) :
    (ob.add_order req).1.status = .cancelled ∧
    (ob.add_order req).2.1 = [] ∧
    (ob.add_order req).2.2 = ob := by
  have hf : fokFails ob req = true := by
    simp only [fokFails, ht, decide_eq_true_eq]
    exact hlt
  simp [OrderBook.add_order, hf, OrderResult.fromRequest]

/-- C2 witness: a FOK bid for 101 against two resting asks of 50 at price 10
is rejected and the book is untouched. -/
theorem fok_rejection_atomicity_witness :
    ((OrderType.fok 10 : OrderType) =
      OrderType.fok 10) ∧
    (((((OrderBook.empty.add_order
          ⟨.fresh 0, .ask, 50, .limit 10⟩).2.2).add_order
          ⟨.fresh 1, .ask, 50, .limit 10⟩).2.2).add_order
          ⟨.fresh 2, .bid, 101, .fok 10⟩).1.status = .cancelled := by
  constructor
  · rfl
  · refine (fok_rejection_atomicity _ ⟨.fresh 2, .bid, 101, .fok 10⟩ 10 rfl ?_).1
    decide

/-! ### Claim C1: locator-book consistency (violated by the code) -/

/-- The C1 failing input: an ask of 50 resting at price 10 is fully filled
by a crossing bid of 50; `match_order` removes the maker from its level but
no code path removes it from the locator. -/
def c1Book : OrderBook :=
  (((OrderBook.empty.add_order ⟨.fresh 0, .ask, 50, .limit 10⟩).2.2).add_order
    ⟨.fresh 1, .bid, 50, .limit 10⟩).2.2

/-- C1.  Evaluation of the code at the failing input: after the cross, both
half-books are empty (no resting order anywhere), yet the locator still
holds the fully-filled maker's entry, so `get_order_count()` reports 1
while the half-books hold 0 orders — the locator-book consistency invariant
is violated, and the fully-filled maker was *not* removed from the locator
in the step that removed it from its level. -/
theorem locator_book_inconsistency :
    c1Book.get_order_count = 1 ∧
    c1Book.asks.get_order_count + c1Book.bids.get_order_count = 0 ∧
    alookup (OrderId.fresh 0) c1Book.order_loc = some (.ask, 10) ∧
    c1Book.get_order (.fresh 0) = none := by
  decide

/-! ### Matching preserves identity fields of the incoming order -/

theorem matchLevel_inc_fields (s : Side) (pr : ℚ) (l : List TradeOrder)
    (inc : TradeOrder) :
    (matchLevel s pr inc l).1.id = inc.id ∧
    (matchLevel s pr inc l).1.side = inc.side ∧
    (matchLevel s pr inc l).1.order_type = inc.order_type ∧
    (matchLevel s pr inc l).1.initial_qty = inc.initial_qty := by
  induction l generalizing inc with
  | nil => exact ⟨rfl, rfl, rfl, rfl⟩
  | cons o rest ih =>
    rw [matchLevel]
    by_cases h1 : inc.remaining_qty ≤ 0
    · rw [if_pos h1]
      exact ⟨rfl, rfl, rfl, rfl⟩
    · rw [if_neg h1]
      by_cases h2 : 0 < (o.filled_by inc pr).1.remaining_qty
      · rw [if_pos h2]
        exact ⟨rfl, rfl, rfl, rfl⟩
      · rw [if_neg h2]
        exact ih ((o.filled_by inc pr).2.1)

theorem match_order_inc_fields (hb : HalfBook) (inc : TradeOrder) (pr : ℚ) :
    (hb.match_order inc pr).1.id = inc.id ∧
    (hb.match_order inc pr).1.side = inc.side ∧
    (hb.match_order inc pr).1.order_type = inc.order_type ∧
    (hb.match_order inc pr).1.initial_qty = inc.initial_qty := by
  rw [HalfBook.match_order]
  cases alookup pr hb.levels with
  | none => exact ⟨rfl, rfl, rfl, rfl⟩
  | some lvl =>
    by_cases h : (matchLevel hb.s pr inc lvl).2.1.isEmpty
    · simp only [h, if_true]
      exact matchLevel_inc_fields hb.s pr lvl inc
    · simp only [h, if_false]
      exact matchLevel_inc_fields hb.s pr lvl inc

theorem matchAll_inc_fields (hb : HalfBook) (inc : TradeOrder) (ps : List ℚ) :
    (matchAll hb inc ps).1.id = inc.id ∧
    (matchAll hb inc ps).1.side = inc.side ∧
    (matchAll hb inc ps).1.order_type = inc.order_type ∧
    (matchAll hb inc ps).1.initial_qty = inc.initial_qty := by
  induction ps generalizing hb inc with
  | nil => exact ⟨rfl, rfl, rfl, rfl⟩
  | cons p ps ih =>
    rw [matchAll]
    by_cases h : (hb.match_order inc p).1.remaining_qty = 0
    · simp only [if_pos h]
      exact match_order_inc_fields hb inc p
    · simp only [if_neg h]
      obtain ⟨h1, h2, h3, h4⟩ :=
        ih ((hb.match_order inc p).2.1) ((hb.match_order inc p).1)
      obtain ⟨g1, g2, g3, g4⟩ := match_order_inc_fields hb inc p
      exact ⟨h1.trans g1, h2.trans g2, h3.trans g3, h4.trans g4⟩

theorem addOrderMatched_inc_fields (ob : OrderBook) (req : OrderRequest) :
    (ob.addOrderMatched req).1.id = req.id ∧
    (ob.addOrderMatched req).1.side = req.side ∧
    (ob.addOrderMatched req).1.order_type = req.order_type ∧
    (ob.addOrderMatched req).1.initial_qty = req.qty := by
  rw [OrderBook.addOrderMatched]
  exact matchAll_inc_fields _ _ _

theorem addOrderMatched_order_loc (ob : OrderBook) (req : OrderRequest) :
    (ob.addOrderMatched req).2.1.order_loc = ob.order_loc := by
  rw [OrderBook.addOrderMatched]
  exact setBook_order_loc

/-! ### Claim C9: non-positive-price limit orders report Open but never rest -/

/-- C9.  An `add_order` with type `Limit P`, `P ≤ 0`, whose matching ends
with residual quantity and no fills, returns status `Open`, yet creates no
resting entry: the id (fresh, hence absent from the locator beforehand) is
absent from the locator afterwards, and subsequent `get_order`,
`cancel_order`, `delete_order` calls with that id all return `None` and
leave the book unchanged. -/
theorem limit_nonpositive_never_rests (ob : OrderBook) (req : OrderRequest)
    (p : ℚ) (ht : req.order_type = .limit p) (hp : p ≤ 0)
    (hfresh : alookup req.id ob.order_loc = none)
    (hrem : 0 < (ob.add_order req).1.remaining_qty)
    (hfills : (ob.add_order req).1.fills = []) :
    (ob.add_order req).1.status = .open_ ∧
    alookup req.id (ob.add_order req).2.2.order_loc = none ∧
    (ob.add_order req).2.2.get_order req.id = none ∧
    (∀ q, (ob.add_order req).2.2.cancel_order req.id q =
      (none, (ob.add_order req).2.2)) ∧
    (ob.add_order req).2.2.delete_order req.id =
      (none, (ob.add_order req).2.2) := by
  have hff : fokFails ob req = false := by simp [fokFails, ht]
  have hot : (ob.addOrderMatched req).1.order_type = OrderType.limit p := by
    rw [(addOrderMatched_inc_fields ob req).2.2.1, ht]
  have hnp : ¬(0 < p ∧ 0 < (ob.addOrderMatched req).1.remaining_qty) :=
    fun h => absurd h.1 (not_lt.mpr hp)
  have hadd : ob.add_order req =
      (OrderResult.fromTrade (ob.addOrderMatched req).1,
       (ob.addOrderMatched req).2.2,
       (ob.addOrderMatched req).2.1) := by
    rw [OrderBook.add_order, hff]
    simp only [Bool.false_eq_true, if_false]
    simp only [hot]
    rw [if_neg hnp]
  rw [hadd] at hrem hfills
  have h0 : ¬(ob.addOrderMatched req).1.remaining_qty = 0 := by
    exact ne_of_gt hrem
  have hloc : alookup req.id (ob.addOrderMatched req).2.1.order_loc = none := by
    rw [addOrderMatched_order_loc]
    exact hfresh
  have hget : (ob.addOrderMatched req).2.1.get_order req.id = none := by
    rw [OrderBook.get_order, hloc]
    rfl
  refine ⟨?_, ?_, ?_, ?_, ?_⟩
  · rw [hadd]
    have hfe : (ob.addOrderMatched req).1.fills = [] := hfills
    simp [OrderResult.fromTrade, h0, hfe, hot]
  · rw [hadd]
    exact hloc
  · rw [hadd]
    exact hget
  · intro q
    rw [hadd]
    rw [OrderBook.cancel_order, hget]
  · rw [hadd]
    rw [OrderBook.delete_order, hloc]

/-- C9 witness: a limit bid at price 0 for quantity 5 against the empty
book reports `Open` but rests nowhere. -/
theorem limit_nonpositive_never_rests_witness :
    (OrderBook.empty.add_order ⟨.fresh 0, .bid, 5, .limit 0⟩).1.status =
      .open_ ∧
    (OrderBook.empty.add_order
      ⟨.fresh 0, .bid, 5, .limit 0⟩).2.2.get_order (.fresh 0) = none :=
  ⟨(limit_nonpositive_never_rests OrderBook.empty ⟨.fresh 0, .bid, 5, .limit 0⟩
      0 rfl (by norm_num) rfl (by decide) (by decide)).1,
   (limit_nonpositive_never_rests OrderBook.empty ⟨.fresh 0, .bid, 5, .limit 0⟩
      0 rfl (by norm_num) rfl (by decide) (by decide)).2.2.1⟩

/-! ### Claim C4: price-time priority within a level -/

/-- Every order left in the level after `matchLevel` has the id of one of
the original entries. -/
theorem matchLevel_level_ids_sub (s : Side) (pr : ℚ) (l : List TradeOrder)
    (inc : TradeOrder) :
    ∀ o' ∈ (matchLevel s pr inc l).2.1, o'.id ∈ l.map TradeOrder.id := by
  induction l generalizing inc with
  | nil => intro o' h; simp [matchLevel] at h
  | cons o rest ih =>
    intro o' h
    rw [matchLevel] at h
    by_cases h1 : inc.remaining_qty ≤ 0
    · rw [if_pos h1] at h
      exact List.mem_map_of_mem _ h
    · rw [if_neg h1] at h
      by_cases h2 : 0 < (o.filled_by inc pr).1.remaining_qty
      · rw [if_pos h2] at h
        rcases List.mem_cons.mp h with rfl | h
        · exact List.mem_map.mpr ⟨o, List.mem_cons_self _ _, rfl⟩
        · exact List.mem_map_of_mem _ (List.mem_cons_of_mem _ h)
      · rw [if_neg h2] at h
        have := ih ((o.filled_by inc pr).2.1) o' h
        rw [List.map_cons]
        exact List.mem_cons_of_mem _ this

/-- Every execution emitted by `matchLevel` names one of the original level
entries as its maker. -/
theorem matchLevel_exec_maker_mem (s : Side) (pr : ℚ) (l : List TradeOrder)
    (inc : TradeOrder) :
    ∀ e ∈ (matchLevel s pr inc l).2.2,
      e.maker_order_id ∈ l.map TradeOrder.id := by
  induction l generalizing inc with
  | nil => intro e h; simp [matchLevel] at h
  | cons o rest ih =>
    intro e h
    rw [matchLevel] at h
    by_cases h1 : inc.remaining_qty ≤ 0
    · rw [if_pos h1] at h
      simp at h
    · rw [if_neg h1] at h
      by_cases h2 : 0 < (o.filled_by inc pr).1.remaining_qty
      · rw [if_pos h2] at h
        rcases List.mem_cons.mp h with rfl | h
        · exact List.mem_map.mpr ⟨o, List.mem_cons_self _ _, rfl⟩
        · simp at h
      · rw [if_neg h2] at h
        rcases List.mem_cons.mp h with rfl | h
        · exact List.mem_map.mpr ⟨o, List.mem_cons_self _ _, rfl⟩
        · have := ih ((o.filled_by inc pr).2.1) e h
          rw [List.map_cons]
          exact List.mem_cons_of_mem _ this

/-- Quantity matched against a given maker id across an execution list. -/
def execQtyFor (oid : OrderId) (es : List TradeExecution) : ℚ :=
  ((es.filter (fun e => decide (e.maker_order_id = oid))).map
    TradeExecution.qty).sum

theorem execQtyFor_nil (oid : OrderId) : execQtyFor oid [] = 0 := rfl

theorem execQtyFor_cons_ne (oid : OrderId) (e : TradeExecution)
    (es : List TradeExecution) (h : e.maker_order_id ≠ oid) :
    execQtyFor oid (e :: es) = execQtyFor oid es := by
  simp [execQtyFor, List.filter_cons, h]

theorem execQtyFor_cons_eq (oid : OrderId) (e : TradeExecution)
    (es : List TradeExecution) (h : e.maker_order_id = oid) :
    execQtyFor oid (e :: es) = e.qty + execQtyFor oid es := by
  simp [execQtyFor, List.filter_cons, h]

theorem execQtyFor_eq_zero (oid : OrderId) (es : List TradeExecution)
    (h : ∀ e ∈ es, e.maker_order_id ≠ oid) : execQtyFor oid es = 0 := by
  induction es with
  | nil => rfl
  | cons e es ih =>
    rw [execQtyFor_cons_ne oid e es (h e (List.mem_cons_self _ _))]
    exact ih (fun e' he' => h e' (List.mem_cons_of_mem _ he'))

/-- Priority induction: if some maker strictly behind `a` in the deque
receives a fill, then `a` was fully consumed (its executions sum to its
whole remaining quantity and it is gone from the level). -/
theorem priority_aux (s : Side) (pr : ℚ) (a b : TradeOrder)
    (l2 l3 : List TradeOrder) :
    ∀ (l1 : List TradeOrder) (inc : TradeOrder),
    ((l1 ++ a :: (l2 ++ b :: l3)).map TradeOrder.id).Nodup →
    (∃ e ∈ (matchLevel s pr inc (l1 ++ a :: (l2 ++ b :: l3))).2.2,
       e.maker_order_id = b.id) →
    execQtyFor a.id (matchLevel s pr inc (l1 ++ a :: (l2 ++ b :: l3))).2.2 =
      a.remaining_qty ∧
    ∀ o ∈ (matchLevel s pr inc (l1 ++ a :: (l2 ++ b :: l3))).2.1,
      o.id ≠ a.id := by
  intro l1
  induction l1 with
  | nil =>
    intro inc hnd hb
    simp only [List.nil_append] at hnd hb ⊢
    have hbtail : b.id ∈ (l2 ++ b :: l3).map TradeOrder.id :=
      List.mem_map_of_mem _ (List.mem_append_right _ (List.mem_cons_self _ _))
    rw [List.map_cons] at hnd
    obtain ⟨hani, hnd'⟩ := List.nodup_cons.mp hnd
    have hab : a.id ≠ b.id := fun h => hani (h ▸ hbtail)
    rw [matchLevel] at hb ⊢
    by_cases h1 : inc.remaining_qty ≤ 0
    · rw [if_pos h1] at hb
      simp at hb
    · rw [if_neg h1] at hb ⊢
      by_cases h2 : 0 < (a.filled_by inc pr).1.remaining_qty
      · rw [if_pos h2] at hb
        simp only [] at hb
        obtain ⟨e, he, hm⟩ := hb
        rcases List.mem_cons.mp he with rfl | he'
        · exact absurd hm hab
        · simp at he'
      · rw [if_neg h2] at hb ⊢
        simp only [] at hb ⊢
        have h2' : a.remaining_qty -
            min inc.remaining_qty a.remaining_qty ≤ 0 := not_lt.mp h2
        have hfq : min inc.remaining_qty a.remaining_qty =
            a.remaining_qty := by
          have := min_le_right inc.remaining_qty a.remaining_qty
          linarith
        have hrecm := matchLevel_exec_maker_mem s pr (l2 ++ b :: l3)
          ((a.filled_by inc pr).2.1)
        have hrecl := matchLevel_level_ids_sub s pr (l2 ++ b :: l3)
          ((a.filled_by inc pr).2.1)
        constructor
        · rw [show (a.filled_by inc pr).1.id = a.id from rfl,
            execQtyFor_cons_eq a.id
              ⟨(a.filled_by inc pr).2.2, pr, (a.filled_by inc pr).2.1.id,
                a.id, s.opposite⟩
              ((matchLevel s pr (a.filled_by inc pr).2.1
                (l2 ++ b :: l3)).2.2) rfl]
          rw [execQtyFor_eq_zero a.id
            ((matchLevel s pr (a.filled_by inc pr).2.1 (l2 ++ b :: l3)).2.2)
            (fun e' he' hcontra => hani (hcontra ▸ hrecm e' he'))]
          show min inc.remaining_qty a.remaining_qty + 0 = a.remaining_qty
          rw [hfq, add_zero]
        · intro o ho hcontra
          exact hani (hcontra ▸ hrecl o ho)
  | cons x l1' ih =>
    intro inc hnd hb
    rw [List.cons_append] at hnd hb ⊢
    rw [List.map_cons] at hnd
    obtain ⟨hxni, hnd'⟩ := List.nodup_cons.mp hnd
    have hbtail : b.id ∈ (l1' ++ a :: (l2 ++ b :: l3)).map TradeOrder.id :=
      List.mem_map_of_mem _ (List.mem_append_right _ (List.mem_cons_of_mem _
        (List.mem_append_right _ (List.mem_cons_self _ _))))
    have hatail : a.id ∈ (l1' ++ a :: (l2 ++ b :: l3)).map TradeOrder.id :=
      List.mem_map_of_mem _ (List.mem_append_right _ (List.mem_cons_self _ _))
    have hxb : x.id ≠ b.id := fun h => hxni (h ▸ hbtail)
    have hxa : x.id ≠ a.id := fun h => hxni (h ▸ hatail)
    rw [matchLevel] at hb ⊢
    by_cases h1 : inc.remaining_qty ≤ 0
    · rw [if_pos h1] at hb
      simp at hb
    · rw [if_neg h1] at hb ⊢
      by_cases h2 : 0 < (x.filled_by inc pr).1.remaining_qty
      · rw [if_pos h2] at hb
        simp only [] at hb
        obtain ⟨e, he, hm⟩ := hb
        rcases List.mem_cons.mp he with rfl | he'
        · exact absurd hm hxb
        · simp at he'
      · rw [if_neg h2] at hb ⊢
        simp only [] at hb ⊢
        obtain ⟨e, he, hm⟩ := hb
        rcases List.mem_cons.mp he with rfl | he'
        · exact absurd hm hxb
        · obtain ⟨hsum, hlvl⟩ := ih ((x.filled_by inc pr).2.1) hnd' ⟨e, he', hm⟩
          refine ⟨?_, hlvl⟩
          rw [show (x.filled_by inc pr).1.id = x.id from rfl,
            execQtyFor_cons_ne a.id
              ⟨(x.filled_by inc pr).2.2, pr, (x.filled_by inc pr).2.1.id,
                x.id, s.opposite⟩
              ((matchLevel s pr (x.filled_by inc pr).2.1
                (l1' ++ a :: (l2 ++ b :: l3))).2.2) hxa]
          exact hsum

/-- C4.  Price-time priority: in a level deque `l1 ++ A :: l2 ++ B :: l3`
(`A` ahead of `B`, all resting ids distinct), if the matching loop gives `B`
any fill then `A`'s executions sum to `A`'s entire remaining quantity and
`A` is no longer in the level; and a resting order only partially filled by
`match_order` (the taker exhausts first) is put back at the *front* of the
deque with the rest of the queue untouched. -/
theorem price_time_priority (s : Side) (pr : ℚ) (inc a b : TradeOrder)
    (l1 l2 l3 rest : List TradeOrder) :
    ((((l1 ++ a :: (l2 ++ b :: l3)).map TradeOrder.id).Nodup →
      (∃ e ∈ (matchLevel s pr inc (l1 ++ a :: (l2 ++ b :: l3))).2.2,
        e.maker_order_id = b.id) →
      execQtyFor a.id
          (matchLevel s pr inc (l1 ++ a :: (l2 ++ b :: l3))).2.2 =
        a.remaining_qty ∧
      ∀ o ∈ (matchLevel s pr inc (l1 ++ a :: (l2 ++ b :: l3))).2.1,
        o.id ≠ a.id)) ∧
    (0 < inc.remaining_qty → inc.remaining_qty < a.remaining_qty →
      (matchLevel s pr inc (a :: rest)).2.1 =
        { a with
            remaining_qty := a.remaining_qty - inc.remaining_qty,
            fills := a.fills ++ [⟨inc.remaining_qty, pr, inc.id⟩] } :: rest) := by
  constructor
  · exact priority_aux s pr a b l2 l3 l1 inc
  · intro hq hlt
    rw [matchLevel, if_neg (not_le.mpr hq)]
    have hfq : min inc.remaining_qty a.remaining_qty =
        inc.remaining_qty := min_eq_left (le_of_lt hlt)
    have hpos : 0 < (a.filled_by inc pr).1.remaining_qty := by
      show 0 < a.remaining_qty - min inc.remaining_qty a.remaining_qty
      rw [hfq]
      linarith
    rw [if_pos hpos]
    show (a.filled_by inc pr).1 :: rest = _
    rw [show (a.filled_by inc pr).1 =
      { a with
          remaining_qty := a.remaining_qty - inc.remaining_qty,
          fills := a.fills ++ [⟨inc.remaining_qty, pr, inc.id⟩] } by
      simp [TradeOrder.filled_by, hfq]]

/-- C4 witness: a taker of 150 against the queue `[A(100), B(50)]` at price
10 fills `A` for its whole 100 before `B` sees anything; a taker of 30
against `[A(100)]`-style queue leaves the shrunken `A` at the front. -/
theorem price_time_priority_witness :
    (execQtyFor (.fresh 0)
        (matchLevel .ask 10 ⟨.fresh 2, .bid, 150, 150, [], .limit 10⟩
          ([] ++ ⟨.fresh 0, .ask, 100, 100, [], .limit 10⟩ ::
            ([] ++ ⟨.fresh 1, .ask, 50, 50, [], .limit 10⟩ :: []))).2.2 =
      (100 : ℚ)) ∧
    ((matchLevel .ask 10 ⟨.fresh 2, .bid, 30, 30, [], .limit 10⟩
        (⟨.fresh 0, .ask, 100, 100, [], .limit 10⟩ ::
          [⟨.fresh 1, .ask, 50, 50, [], .limit 10⟩])).2.1 =
      ⟨.fresh 0, .ask, 70, 100, [⟨30, 10, .fresh 2⟩], .limit 10⟩ ::
        [⟨.fresh 1, .ask, 50, 50, [], .limit 10⟩]) := by
  constructor
  · exact ((price_time_priority .ask 10
      ⟨.fresh 2, .bid, 150, 150, [], .limit 10⟩
      ⟨.fresh 0, .ask, 100, 100, [], .limit 10⟩
      ⟨.fresh 1, .ask, 50, 50, [], .limit 10⟩
      [] [] [] []).1 (by decide) ⟨⟨50, 10, .fresh 2, .fresh 1, .bid⟩,
        by decide, rfl⟩).1
  · have := (price_time_priority .ask 10
      ⟨.fresh 2, .bid, 30, 30, [], .limit 10⟩
      ⟨.fresh 0, .ask, 100, 100, [], .limit 10⟩
      ⟨.fresh 1, .ask, 50, 50, [], .limit 10⟩
      [] [] [] [⟨.fresh 1, .ask, 50, 50, [], .limit 10⟩]).2
      (by norm_num) (by norm_num)
    rw [this]
    norm_num

/-! ### Claim C6: cancel_order semantics -/

theorem find?_replaceFirst {α : Type} (p : α → Bool) (f : α → α)
    (l : List α) (x : α) (h : l.find? p = some x) (hf : p (f x) = true) :
    (replaceFirst p f l).find? p = some (f x) := by
  induction l with
  | nil => simp [List.find?] at h
  | cons y ys ih =>
    rw [replaceFirst]
    by_cases hy : p y = true
    · rw [if_pos hy]
      rw [List.find?_cons_of_pos _ hy] at h
      injection h with h
      subst h
      exact List.find?_cons_of_pos _ hf
    · rw [if_neg hy]
      rw [List.find?_cons_of_neg _ hy] at h
      rw [List.find?_cons_of_neg _ hy]
      exact ih h

theorem extractFirst_replaceFirst {α : Type} (p : α → Bool) (f : α → α)
    (l : List α) (x : α) (h : l.find? p = some x) (hf : p (f x) = true) :
    ∃ r, extractFirst p (replaceFirst p f l) = some (f x, r) := by
  induction l with
  | nil => simp [List.find?] at h
  | cons y ys ih =>
    rw [replaceFirst]
    by_cases hy : p y = true
    · rw [if_pos hy]
      rw [List.find?_cons_of_pos _ hy] at h
      injection h with h
      subst h
      refine ⟨ys, ?_⟩
      rw [extractFirst, if_pos hf]
    · rw [if_neg hy]
      rw [List.find?_cons_of_neg _ hy] at h
      obtain ⟨r, hr⟩ := ih h
      refine ⟨y :: r, ?_⟩
      rw [extractFirst, if_neg hy, hr]

theorem getBook_loc_update (ob : OrderBook) (L : List (OrderId × Side × ℚ))
    (s : Side) : ({ ob with order_loc := L } : OrderBook).getBook s =
      ob.getBook s := by
  cases s <;> rfl

/-- C6 (amended).  `cancel_order` on a resting, locatable order reduces its
remaining quantity by `min qty remaining_qty`; if that reaches 0 the call
behaves as `delete_order` (result `Cancelled`, order gone); otherwise the
order stays resting with the reduced quantity and the result snapshot's
status follows the §4.4 table: `Open` when the order has no fills, but
`PartiallyFilled` — not `Open` — when it has fills (for the rest-capable
types `Limit`/`SystemLevel`). -/
theorem cancel_order_semantics (ob : OrderBook) (oid : OrderId) (qty : ℚ)
    (o : TradeOrder) (hget : ob.get_order oid = some o) :
    ((o.cancel qty).remaining_qty =
      o.remaining_qty - min qty o.remaining_qty) ∧
    ((o.cancel qty).remaining_qty = 0 →
      (ob.cancel_order oid qty).1 =
        some (OrderResult.cancelledOf (o.cancel qty)) ∧
      (OrderResult.cancelledOf (o.cancel qty)).status = .cancelled ∧
      (ob.cancel_order oid qty).2.get_order oid = none) ∧
    ((o.cancel qty).remaining_qty ≠ 0 →
      (ob.cancel_order oid qty).1 =
        some (OrderResult.fromTrade (o.cancel qty)) ∧
      (ob.cancel_order oid qty).2.get_order oid = some (o.cancel qty) ∧
      (∀ lp, (o.order_type = .limit lp ∨ o.order_type = .systemLevel lp) →
        (o.fills = [] →
          (OrderResult.fromTrade (o.cancel qty)).status = .open_) ∧
        (o.fills ≠ [] →
          (OrderResult.fromTrade (o.cancel qty)).status =
            .partiallyFilled))) := by
  -- Decompose the successful lookup.
  rw [OrderBook.get_order] at hget
  cases hsp : alookup oid ob.order_loc with
  | none => rw [hsp] at hget; simp at hget
  | some sp =>
  rw [hsp] at hget
  simp only [Option.some_bind] at hget
  rw [HalfBook.get_order] at hget
  cases hlv : alookup sp.2 (ob.getBook sp.1).levels with
  | none => rw [hlv] at hget; simp at hget
  | some lvl =>
  rw [hlv] at hget
  simp only [Option.some_bind] at hget
  have hpo : o.id = oid := by
    have hpred := List.find?_some hget
    simpa using hpred
  have hpo' : decide ((o.cancel qty).id = oid) = true :=
    decide_eq_true_eq.mpr hpo
  -- The written-back book.
  have hmod : ob.modifyOrder oid (fun _ => o.cancel qty) =
      ob.setBook sp.1 ((ob.getBook sp.1).modifyOrder sp.2 oid
        (fun _ => o.cancel qty)) := by
    rw [OrderBook.modifyOrder, hsp]
  have hloc' : (ob.modifyOrder oid (fun _ => o.cancel qty)).order_loc =
      ob.order_loc := by
    rw [hmod, setBook_order_loc]
  have hlv' : alookup sp.2 ((ob.getBook sp.1).modifyOrder sp.2 oid
      (fun _ => o.cancel qty)).levels =
      some (replaceFirst (fun x => decide (x.id = oid))
        (fun _ => o.cancel qty) lvl) := by
    rw [HalfBook.modifyOrder]
    show alookup sp.2 (amodify sp.2 _ _) = _
    rw [alookup_amodify_self, hlv]
    rfl
  have hfind' : (replaceFirst (fun x => decide (x.id = oid))
      (fun _ => o.cancel qty) lvl).find? (fun x => decide (x.id = oid)) =
      some (o.cancel qty) :=
    find?_replaceFirst _ _ lvl o hget hpo'
  have hget' : (ob.modifyOrder oid (fun _ => o.cancel qty)).get_order oid =
      some (o.cancel qty) := by
    rw [OrderBook.get_order, hloc', hsp]
    simp only [Option.some_bind]
    rw [hmod, getBook_setBook_self, HalfBook.get_order, hlv']
    simp only [Option.some_bind]
    exact hfind'
  have hcanc : ob.cancel_order oid qty =
      (if (o.cancel qty).remaining_qty = 0 then
        (ob.modifyOrder oid (fun _ => o.cancel qty)).delete_order oid
      else (some (OrderResult.fromTrade (o.cancel qty)),
        ob.modifyOrder oid (fun _ => o.cancel qty))) := by
    rw [OrderBook.cancel_order]
    rw [show ob.get_order oid = some o by
      rw [OrderBook.get_order, hsp]
      simp only [Option.some_bind]
      rw [HalfBook.get_order, hlv]
      simp only [Option.some_bind]
      exact hget]
  refine ⟨rfl, fun h0 => ?_, fun h0 => ?_⟩
  · -- full cancellation: behaves as delete_order
    rw [hcanc, if_pos h0]
    obtain ⟨r, hr⟩ := extractFirst_replaceFirst _ (fun _ => o.cancel qty)
      lvl o hget hpo'
    have hMget : (ob.modifyOrder oid (fun _ => o.cancel qty)).getBook sp.1 =
        (ob.getBook sp.1).modifyOrder sp.2 oid (fun _ => o.cancel qty) := by
      rw [hmod, getBook_setBook_self]
    have hkey : ∃ hb2 : HalfBook,
        ((ob.getBook sp.1).modifyOrder sp.2 oid
          (fun _ => o.cancel qty)).remove_order sp.2 oid =
        (some (o.cancel qty), hb2) := by
      rw [HalfBook.remove_order, hlv']
      simp only [hr]
      by_cases hre : r.isEmpty
      · exact ⟨_, by rw [if_pos hre]⟩
      · exact ⟨_, by rw [if_neg hre]⟩
    obtain ⟨hb2, hkey⟩ := hkey
    have hdel : ∃ bnew : OrderBook,
        (ob.modifyOrder oid (fun _ => o.cancel qty)).delete_order oid =
          (some (OrderResult.cancelledOf (o.cancel qty)), bnew) ∧
        bnew.order_loc = aerase oid ob.order_loc := by
      obtain ⟨s, pr⟩ := sp
      simp only [] at hsp hMget hkey
      cases s with
      | ask =>
        simp only [OrderBook.getBook] at hMget hkey
        refine ⟨⟨hb2, (ob.modifyOrder oid (fun _ => o.cancel qty)).bids,
          aerase oid ob.order_loc⟩, ?_, rfl⟩
        rw [OrderBook.delete_order, hloc', hsp]
        simp only [OrderBook.getBook, hMget, hkey]
        rfl
      | bid =>
        simp only [OrderBook.getBook] at hMget hkey
        refine ⟨⟨(ob.modifyOrder oid (fun _ => o.cancel qty)).asks, hb2,
          aerase oid ob.order_loc⟩, ?_, rfl⟩
        rw [OrderBook.delete_order, hloc', hsp]
        simp only [OrderBook.getBook, hMget, hkey]
        rfl
    obtain ⟨bnew, hdel1, hdel2⟩ := hdel
    refine ⟨by rw [hdel1], rfl, ?_⟩
    rw [hdel1]
    show bnew.get_order oid = none
    rw [OrderBook.get_order, hdel2, alookup_aerase_self]
    rfl
  · -- partial cancellation: stays resting
    rw [hcanc, if_neg h0]
    refine ⟨rfl, hget', fun lp hlp => ⟨fun hfe => ?_, fun hfn => ?_⟩⟩
    · have hty : (o.cancel qty).order_type = o.order_type := rfl
      have hfq : (o.cancel qty).fills = o.fills := rfl
      rcases hlp with hlp | hlp <;>
        simp [OrderResult.fromTrade, h0, hfq, hfe, hty, hlp]
    · have hfq : (o.cancel qty).fills = o.fills := rfl
      have hfe : (o.cancel qty).fills.isEmpty = false := by
        rw [hfq]
        cases hc : o.fills with
        | nil => exact absurd hc hfn
        | cons a l => rfl
      rcases hlp with hlp | hlp <;>
        simp [OrderResult.fromTrade, h0, hfe,
          show (o.cancel qty).order_type = o.order_type from rfl, hlp]

/-- The C6 counterexample book: an ask of 30 at 10 rests; a bid of 100 at 10
crosses for 30 and rests with remaining 70 and one fill. -/
def c6Book : OrderBook :=
  (((OrderBook.empty.add_order ⟨.fresh 0, .ask, 30, .limit 10⟩).2.2).add_order
    ⟨.fresh 1, .bid, 100, .limit 10⟩).2.2

/-- C6 counterexample: partially cancelling (by 20) the resting,
partially-filled bid leaves remaining 50 > 0, but the returned status is
`PartiallyFilled`, not `Open` as the claim states. -/
theorem cancel_status_counterexample :
    ((c6Book.cancel_order (.fresh 1) 20).1.map OrderResult.status) =
      some .partiallyFilled ∧
    ((c6Book.cancel_order (.fresh 1) 20).1.map OrderResult.status) ≠
      some .open_ ∧
    ((c6Book.cancel_order (.fresh 1) 20).1.map
      (fun res => res.remaining_qty)) = some 50 := by
  decide

/-- C6 witness: cancelling 40 of an unfilled resting bid of 100 leaves 60
remaining with status `Open`; cancelling the rest behaves as delete. -/
theorem cancel_order_semantics_witness :
    (((((OrderBook.empty.add_order
        ⟨.fresh 0, .bid, 100, .limit 10⟩).2.2).cancel_order
        (.fresh 0) 40).1) =
      some (OrderResult.fromTrade
        ((⟨.fresh 0, .bid, 100, 100, [], .limit 10⟩ : TradeOrder).cancel
          40))) ∧
    (OrderResult.fromTrade
      ((⟨.fresh 0, .bid, 100, 100, [], .limit 10⟩ : TradeOrder).cancel
        40)).status = .open_ := by
  have h := cancel_order_semantics
    ((OrderBook.empty.add_order ⟨.fresh 0, .bid, 100, .limit 10⟩).2.2)
    (.fresh 0) 40 ⟨.fresh 0, .bid, 100, 100, [], .limit 10⟩ (by decide)
  refine ⟨(h.2.2 (by decide)).1, ?_⟩
  exact ((h.2.2 (by decide)).2.2 10 (Or.inl rfl)).1 rfl

/-! ### Claim C5: SystemLevel merge -/

theorem level_sub_allOrders {hb : HalfBook} {p : ℚ} {lvl : List TradeOrder}
    (h : alookup p hb.levels = some lvl) : ∀ o ∈ lvl, o ∈ hb.allOrders := by
  intro o ho
  have hmem : (p, lvl) ∈ hb.levels := alookup_mem h
  rw [HalfBook.allOrders]
  exact List.mem_flatten.mpr ⟨lvl, List.mem_map.mpr ⟨(p, lvl), hmem, rfl⟩, ho⟩

theorem getBook_allOrders_sub {ob : OrderBook} {s : Side} {o : TradeOrder}
    (h : o ∈ (ob.getBook s).allOrders) : o ∈ ob.allOrders := by
  cases s
  · exact List.mem_append_left _ h
  · exact List.mem_append_right _ h

theorem find?_append_of_none {α : Type} {p : α → Bool} {l1 l2 : List α}
    (h : l1.find? p = none) : (l1 ++ l2).find? p = l2.find? p := by
  induction l1 with
  | nil => rfl
  | cons x xs ih =>
    cases hx : p x with
    | true => simp [List.find?_cons, hx] at h
    | false =>
      simp only [List.find?_cons, hx] at h
      simp only [List.cons_append, List.find?_cons, hx]
      exact ih h

theorem replaceFirst_append_of_none {α : Type} {p : α → Bool} {f : α → α}
    {l1 : List α} (l2 : List α) (h : l1.find? p = none) :
    replaceFirst p f (l1 ++ l2) = l1 ++ replaceFirst p f l2 := by
  induction l1 with
  | nil => rfl
  | cons x xs ih =>
    cases hx : p x with
    | true => simp [List.find?_cons, hx] at h
    | false =>
      simp only [List.find?_cons, hx] at h
      simp only [List.cons_append, replaceFirst, hx, Bool.false_eq_true,
        if_false, List.append_eq]
      rw [ih h]

/-- After `HalfBook::add_order` of a fresh-id order, looking the id up at
that price finds exactly the appended order. -/
theorem get_order_add_order_fresh (hb : HalfBook) (p : ℚ) (t : TradeOrder)
    (i : OrderId) (hti : t.id = i)
    (hid : ∀ o ∈ hb.allOrders, o.id ≠ i) :
    (hb.add_order p t).get_order p i = some t := by
  have hpt : (fun o => decide (o.id = i)) t = true := by
    simp [hti]
  rw [HalfBook.add_order]
  cases halv : alookup p hb.levels with
  | none =>
    rw [HalfBook.get_order]
    show (alookup p (ainsert p [t] hb.levels)).bind _ = some t
    rw [alookup_ainsert_self]
    simp only [Option.some_bind]
    exact List.find?_cons_of_pos _ hpt
  | some lvl0 =>
    rw [HalfBook.get_order]
    show (alookup p (amodify p _ hb.levels)).bind _ = some t
    rw [alookup_amodify_self, halv]
    simp only [Option.map_some', Option.some_bind]
    have hnone : lvl0.find? (fun o => decide (o.id = i)) = none := by
      rw [List.find?_eq_none]
      intro x hx
      simp only [decide_eq_true_eq]
      exact hid x (level_sub_allOrders halv x hx)
    rw [find?_append_of_none hnone]
    exact List.find?_cons_of_pos _ hpt

/-- After appending a fresh-id order and then modifying it in place through
`get_order_mut`, the level holds `f t` at the id. -/
theorem get_order_add_modify (hb : HalfBook) (p : ℚ) (t : TradeOrder)
    (i : OrderId) (f : TradeOrder → TradeOrder) (hti : t.id = i)
    (hfi : (f t).id = i) (hid : ∀ o ∈ hb.allOrders, o.id ≠ i) :
    ((hb.add_order p t).modifyOrder p i f).get_order p i = some (f t) := by
  have hpt : (fun o => decide (o.id = i)) t = true := by
    simp [hti]
  have hpft : (fun o => decide (o.id = i)) (f t) = true := by
    simp [hfi]
  rw [HalfBook.add_order]
  cases halv : alookup p hb.levels with
  | none =>
    rw [HalfBook.modifyOrder, HalfBook.get_order]
    show (alookup p (amodify p _ (ainsert p [t] hb.levels))).bind _ = _
    rw [alookup_amodify_self, alookup_ainsert_self]
    simp only [Option.map_some', Option.some_bind]
    rw [show replaceFirst (fun o => decide (o.id = i)) f [t] = [f t] by
      rw [replaceFirst, if_pos hpt]]
    exact List.find?_cons_of_pos _ hpft
  | some lvl0 =>
    rw [HalfBook.modifyOrder, HalfBook.get_order]
    show (alookup p (amodify p _ (amodify p _ hb.levels))).bind _ = _
    rw [alookup_amodify_self, alookup_amodify_self, halv]
    simp only [Option.map_some', Option.some_bind]
    have hnone : lvl0.find? (fun o => decide (o.id = i)) = none := by
      rw [List.find?_eq_none]
      intro x hx
      simp only [decide_eq_true_eq]
      exact hid x (level_sub_allOrders halv x hx)
    rw [replaceFirst_append_of_none _ hnone, find?_append_of_none hnone]
    rw [show replaceFirst (fun o => decide (o.id = i)) f [t] = [f t] by
      rw [replaceFirst, if_pos hpt]]
    exact List.find?_cons_of_pos _ hpft

/-- An `add_order` of a `SystemLevel p` request that can match nothing on
the opposite side (no opposite price in its window) reduces to the
resting-order path `add_system_order`. -/
theorem add_order_system_nomatch (ob : OrderBook) (side : Side) (p q : ℚ)
    (hp : 0 < p) (hq : 0 < q)
    (hopp : ∀ pr ∈ (ob.getBook side.opposite).keys,
      inWindow side p pr = false) :
    ob.add_order ⟨.fromBytes p, side, q, .systemLevel p⟩ =
      (OrderResult.fromTrade ⟨.fromBytes p, side, q, q, [], .systemLevel p⟩,
       [],
       ob.add_system_order side p
         ⟨.fromBytes p, side, q, q, [], .systemLevel p⟩) := by
  have hff : fokFails ob ⟨.fromBytes p, side, q, .systemLevel p⟩ = false := rfl
  have hprices : ((ob.getBook side.opposite).iter_prices).filter
      (matchFilter (TradeOrder.fromRequest
        ⟨.fromBytes p, side, q, .systemLevel p⟩)) = [] := by
    rw [List.filter_eq_nil_iff]
    intro a ha
    have ha' : a ∈ (ob.getBook side.opposite).keys := mem_iter_prices.mp ha
    show ¬ inWindow side p a = true
    rw [hopp a ha']
    simp
  have hmatched : ob.addOrderMatched ⟨.fromBytes p, side, q, .systemLevel p⟩ =
      (⟨.fromBytes p, side, q, q, [], .systemLevel p⟩, ob, []) := by
    rw [OrderBook.addOrderMatched]
    simp only [hprices, matchAll, setBook_getBook_self]
    rfl
  rw [OrderBook.add_order, hff]
  simp only [Bool.false_eq_true, if_false, hmatched]
  rw [if_pos ⟨hp, hq⟩]

/-- C5 (amended).  From any book state with no opposite-side resting price
inside the window of `P` and no resting order (nor locator entry) under the
id derived from `P`, two successive `SystemLevel P` submissions on the same
side with positive quantities `q1`, `q2` derive the same id from `P`
(whatever the id-generator state), and afterwards that id resolves to a
single merged resting order with `remaining_qty = initial_qty = q1 + q2`,
the locator having grown by exactly one entry over the two calls. -/
theorem system_level_merge (ob : OrderBook) (side : Side) (p q1 q2 : ℚ)
    (c1 c2 : ℕ) (hp : 0 < p) (h1 : 0 < q1) (h2 : 0 < q2)
    (hid : ∀ o ∈ ob.allOrders, o.id ≠ .fromBytes p)
    (hloc : alookup (OrderId.fromBytes p) ob.order_loc = none)
    (hopp : ∀ pr ∈ (ob.getBook side.opposite).keys,
      inWindow side p pr = false) :
    (OrderRequest.make side q1 (.systemLevel p) c1).1.id = .fromBytes p ∧
    (OrderRequest.make side q2 (.systemLevel p) c2).1.id = .fromBytes p ∧
    ((ob.add_order
        (OrderRequest.make side q1 (.systemLevel p) c1).1).2.2.add_order
        (OrderRequest.make side q2 (.systemLevel p) c2).1).2.2.get_order
      (.fromBytes p) =
      some ⟨.fromBytes p, side, q1 + q2, q1 + q2, [], .systemLevel p⟩ ∧
    ((ob.add_order
        (OrderRequest.make side q1 (.systemLevel p) c1).1).2.2.add_order
        (OrderRequest.make side q2 (.systemLevel p) c2).1).2.2.get_order_count =
      ob.get_order_count + 1 := by
  have hid' : ∀ o ∈ (ob.getBook side).allOrders, o.id ≠ OrderId.fromBytes p :=
    fun o ho => hid o (getBook_allOrders_sub ho)
  have hreq1 : (OrderRequest.make side q1 (.systemLevel p) c1).1 =
      ⟨.fromBytes p, side, q1, .systemLevel p⟩ := rfl
  have hreq2 : (OrderRequest.make side q2 (.systemLevel p) c2).1 =
      ⟨.fromBytes p, side, q2, .systemLevel p⟩ := rfl
  rw [hreq1, hreq2]
  -- first submission
  have hget0 : ob.get_order (OrderId.fromBytes p) = none := by
    rw [OrderBook.get_order, hloc]
    rfl
  have hob1 : (ob.add_order ⟨.fromBytes p, side, q1, .systemLevel p⟩).2.2 =
      OrderBook.setBook
        { ob with order_loc :=
            ainsert (OrderId.fromBytes p) (side, p) ob.order_loc } side
        ((ob.getBook side).add_order p
          ⟨.fromBytes p, side, q1, q1, [], .systemLevel p⟩) := by
    rw [add_order_system_nomatch ob side p q1 hp h1 hopp]
    show ob.add_system_order side p _ = _
    rw [OrderBook.add_system_order]
    simp only [hget0]
    rw [getBook_loc_update]
  have hob1_loc : (ob.add_order
      ⟨.fromBytes p, side, q1, .systemLevel p⟩).2.2.order_loc =
      ainsert (OrderId.fromBytes p) (side, p) ob.order_loc := by
    rw [hob1, setBook_order_loc]
  have hob1_side : (ob.add_order
      ⟨.fromBytes p, side, q1, .systemLevel p⟩).2.2.getBook side =
      (ob.getBook side).add_order p
        ⟨.fromBytes p, side, q1, q1, [], .systemLevel p⟩ := by
    rw [hob1, getBook_setBook_self]
  have hob1_opp : (ob.add_order
      ⟨.fromBytes p, side, q1, .systemLevel p⟩).2.2.getBook side.opposite =
      ob.getBook side.opposite := by
    rw [hob1, getBook_setBook_ne opposite_ne, getBook_loc_update]
  have hget1 : (ob.add_order
      ⟨.fromBytes p, side, q1, .systemLevel p⟩).2.2.get_order
      (OrderId.fromBytes p) =
      some ⟨.fromBytes p, side, q1, q1, [], .systemLevel p⟩ := by
    rw [OrderBook.get_order, hob1_loc, alookup_ainsert_self]
    simp only [Option.some_bind]
    show ((ob.add_order ⟨.fromBytes p, side, q1, .systemLevel p⟩).2.2.getBook
      side).get_order p (OrderId.fromBytes p) = _
    rw [hob1_side]
    exact get_order_add_order_fresh _ _ _ _ rfl hid'
  -- second submission
  have hopp1 : ∀ pr ∈ ((ob.add_order
      ⟨.fromBytes p, side, q1, .systemLevel p⟩).2.2.getBook
        side.opposite).keys, inWindow side p pr = false := by
    intro pr hpr
    rw [hob1_opp] at hpr
    exact hopp pr hpr
  have hob2 : ((ob.add_order
      ⟨.fromBytes p, side, q1, .systemLevel p⟩).2.2.add_order
      ⟨.fromBytes p, side, q2, .systemLevel p⟩).2.2 =
      OrderBook.setBook
        (ob.add_order ⟨.fromBytes p, side, q1, .systemLevel p⟩).2.2 side
        (((ob.getBook side).add_order p
            ⟨.fromBytes p, side, q1, q1, [], .systemLevel p⟩).modifyOrder p
          (OrderId.fromBytes p)
          (fun ex => (ex.merge
            ⟨.fromBytes p, side, q2, q2, [], .systemLevel p⟩).1)) := by
    rw [add_order_system_nomatch _ side p q2 hp h2 hopp1]
    show OrderBook.add_system_order _ side p _ = _
    rw [OrderBook.add_system_order]
    simp only [hget1]
    rw [OrderBook.modifyOrder, hob1_loc, alookup_ainsert_self]
    simp only []
    rw [hob1_side]
  have hmerged : ((⟨.fromBytes p, side, q1, q1, [], .systemLevel p⟩ :
      TradeOrder).merge
      ⟨.fromBytes p, side, q2, q2, [], .systemLevel p⟩).1 =
      ⟨.fromBytes p, side, q1 + q2, q1 + q2, [], .systemLevel p⟩ := by
    simp [TradeOrder.merge, TradeOrder.mergable]
  refine ⟨rfl, rfl, ?_, ?_⟩
  · rw [OrderBook.get_order, hob2, setBook_order_loc, hob1_loc,
      alookup_ainsert_self]
    simp only [Option.some_bind]
    rw [getBook_setBook_self]
    rw [get_order_add_modify _ _ _ _ _ rfl (by rw [hmerged]) hid']
    rw [hmerged]
  · show ((ob.add_order
      ⟨.fromBytes p, side, q1, .systemLevel p⟩).2.2.add_order
      ⟨.fromBytes p, side, q2, .systemLevel p⟩).2.2.order_loc.length = _
    rw [hob2, setBook_order_loc, hob1_loc, length_ainsert_of_none hloc]
    rfl

/-- The C5 counterexample book: a same-side `SystemLevel(10)` aggregate of 5
already rests (which the claim's precondition — no *opposite*-side order in
the window — allows); then the two submissions q1 = 100, q2 = 50 follow. -/
def c5Book : OrderBook :=
  (((((OrderBook.empty.add_order
    ⟨.fromBytes 10, .ask, 5, .systemLevel 10⟩).2.2).add_order
    ⟨.fromBytes 10, .ask, 100, .systemLevel 10⟩).2.2).add_order
    ⟨.fromBytes 10, .ask, 50, .systemLevel 10⟩).2.2

/-- C5 counterexample: with a pre-existing same-side `SystemLevel` resting
aggregate of 5 at price 10 (allowed by the claim's "no resting order on the
opposite side within P"), the two submissions with q1 = 100, q2 = 50 leave
a resting order of 155, not q1 + q2 = 150. -/
theorem system_level_merge_counterexample :
    (c5Book.get_order (.fromBytes 10)).map
      (fun o => o.remaining_qty) = some 155 ∧
    some (155 : ℚ) ≠ some ((100 : ℚ) + 50) := by
  decide

/-- C5 witness: from the empty book, two `SystemLevel(10)` asks of 100 and
50 merge into one resting order of 150. -/
theorem system_level_merge_witness :
    ((OrderBook.empty.add_order
        (OrderRequest.make .ask 100 (.systemLevel 10) 0).1).2.2.add_order
        (OrderRequest.make .ask 50 (.systemLevel 10) 3).1).2.2.get_order
      (.fromBytes 10) =
      some ⟨.fromBytes 10, .ask, 100 + 50, 100 + 50, [],
        .systemLevel 10⟩ :=
  (system_level_merge OrderBook.empty .ask 10 100 50 0 3 (by norm_num)
    (by norm_num) (by norm_num) (by decide) (by decide) (by decide)).2.2.1

/-! ### Pointwise invariants preserved by every engine operation -/

/-- A pointwise property of every order resting in a half-book. -/
def HBInv (P : TradeOrder → Prop) (hb : HalfBook) : Prop :=
  ∀ o ∈ hb.allOrders, P o

/-- A pointwise property of every order resting in the book. -/
def OBInv (P : TradeOrder → Prop) (ob : OrderBook) : Prop :=
  ∀ o ∈ ob.allOrders, P o

theorem mem_allOrders {hb : HalfBook} {o : TradeOrder} :
    o ∈ hb.allOrders ↔ ∃ e ∈ hb.levels, o ∈ e.2 := by
  rw [HalfBook.allOrders]
  constructor
  · intro h
    obtain ⟨lvl, hlvl, ho⟩ := List.mem_flatten.mp h
    obtain ⟨e, he, rfl⟩ := List.mem_map.mp hlvl
    exact ⟨e, he, ho⟩
  · intro ⟨e, he, ho⟩
    exact List.mem_flatten.mpr ⟨e.2, List.mem_map.mpr ⟨e, he, rfl⟩, ho⟩

theorem mem_replaceFirst {α : Type} {p : α → Bool} {f : α → α} {y : α} :
    ∀ {l : List α}, y ∈ replaceFirst p f l → y ∈ l ∨ ∃ x ∈ l, y = f x := by
  intro l
  induction l with
  | nil => intro h; simp [replaceFirst] at h
  | cons x xs ih =>
    intro h
    rw [replaceFirst] at h
    by_cases hx : p x = true
    · rw [if_pos hx] at h
      rcases List.mem_cons.mp h with rfl | h
      · exact Or.inr ⟨x, List.mem_cons_self _ _, rfl⟩
      · exact Or.inl (List.mem_cons_of_mem _ h)
    · rw [if_neg hx] at h
      rcases List.mem_cons.mp h with rfl | h
      · exact Or.inl (List.mem_cons_self _ _)
      · rcases ih h with h | ⟨z, hz, rfl⟩
        · exact Or.inl (List.mem_cons_of_mem _ h)
        · exact Or.inr ⟨z, List.mem_cons_of_mem _ hz, rfl⟩

theorem extractFirst_rest_sub {α : Type} {p : α → Bool} {x : α}
    {r : List α} : ∀ {l : List α}, extractFirst p l = some (x, r) →
      ∀ y ∈ r, y ∈ l := by
  intro l
  induction l generalizing r with
  | nil => intro h; simp [extractFirst] at h
  | cons z zs ih =>
    intro h y hy
    rw [extractFirst] at h
    by_cases hz : p z = true
    · rw [if_pos hz] at h
      injection h with h
      rw [Prod.mk.injEq] at h
      exact List.mem_cons_of_mem _ (h.2 ▸ hy)
    · rw [if_neg hz] at h
      cases hzs : extractFirst p zs with
      | none => rw [hzs] at h; simp at h
      | some w =>
        rw [hzs] at h
        injection h with h
        rw [Prod.mk.injEq] at h
        rw [← h.2] at hy
        rcases List.mem_cons.mp hy with rfl | hy
        · exact List.mem_cons_self _ _
        · have hw : w = (x, w.2) := by
            rw [Prod.mk.injEq]
            exact ⟨h.1, rfl⟩
          exact List.mem_cons_of_mem _ (ih (by rw [hzs, ← hw]) y hy)

theorem get_order_mem {ob : OrderBook} {oid : OrderId} {o : TradeOrder}
    (h : ob.get_order oid = some o) : o ∈ ob.allOrders := by
  rw [OrderBook.get_order] at h
  cases hsp : alookup oid ob.order_loc with
  | none => rw [hsp] at h; simp at h
  | some sp =>
    rw [hsp] at h
    simp only [Option.some_bind] at h
    rw [HalfBook.get_order] at h
    cases hlv : alookup sp.2 (ob.getBook sp.1).levels with
    | none => rw [hlv] at h; simp at h
    | some lvl =>
      rw [hlv] at h
      simp only [Option.some_bind] at h
      exact getBook_allOrders_sub
        (mem_allOrders.mpr ⟨(sp.2, lvl), alookup_mem hlv,
          List.mem_of_find?_eq_some h⟩)

theorem OBInv_getBook {P : TradeOrder → Prop} {ob : OrderBook} {s : Side}
    (h : OBInv P ob) : HBInv P (ob.getBook s) :=
  fun o ho => h o (getBook_allOrders_sub ho)

theorem OBInv_setBook {P : TradeOrder → Prop} {ob : OrderBook} {s : Side}
    {hb : HalfBook} (h : OBInv P ob) (hhb : HBInv P hb) :
    OBInv P (ob.setBook s hb) := by
  intro o ho
  cases s with
  | ask =>
    rcases List.mem_append.mp ho with ho | ho
    · exact hhb o ho
    · exact h o (List.mem_append_right _ ho)
  | bid =>
    rcases List.mem_append.mp ho with ho | ho
    · exact h o (List.mem_append_left _ ho)
    · exact hhb o ho

theorem matchLevel_preserve (P : TradeOrder → Prop)
    (hfill : ∀ (o inc : TradeOrder) (pr : ℚ), P o → P inc →
      ¬inc.remaining_qty ≤ 0 →
      P (o.filled_by inc pr).1 ∧ P (o.filled_by inc pr).2.1)
    (s : Side) (pr : ℚ) :
    ∀ (l : List TradeOrder) (inc : TradeOrder), (∀ o ∈ l, P o) → P inc →
      (∀ o ∈ (matchLevel s pr inc l).2.1, P o) ∧
      P (matchLevel s pr inc l).1 := by
  intro l
  induction l with
  | nil =>
    intro inc hl hinc
    exact ⟨by intro o ho; simp [matchLevel] at ho, hinc⟩
  | cons o rest ih =>
    intro inc hl hinc
    rw [matchLevel]
    by_cases h1 : inc.remaining_qty ≤ 0
    · rw [if_pos h1]
      exact ⟨hl, hinc⟩
    · rw [if_neg h1]
      obtain ⟨hPo', hPinc'⟩ :=
        hfill o inc pr (hl o (List.mem_cons_self _ _)) hinc h1
      by_cases h2 : 0 < (o.filled_by inc pr).1.remaining_qty
      · rw [if_pos h2]
        refine ⟨?_, hPinc'⟩
        intro x hx
        rcases List.mem_cons.mp hx with rfl | hx
        · exact hPo'
        · exact hl x (List.mem_cons_of_mem _ hx)
      · rw [if_neg h2]
        exact ih ((o.filled_by inc pr).2.1)
          (fun x hx => hl x (List.mem_cons_of_mem _ hx)) hPinc'

theorem match_order_preserve (P : TradeOrder → Prop)
    (hfill : ∀ (o inc : TradeOrder) (pr : ℚ), P o → P inc →
      ¬inc.remaining_qty ≤ 0 →
      P (o.filled_by inc pr).1 ∧ P (o.filled_by inc pr).2.1)
    (hb : HalfBook) (inc : TradeOrder) (pr : ℚ)
    (hhb : HBInv P hb) (hinc : P inc) :
    HBInv P (hb.match_order inc pr).2.1 ∧ P (hb.match_order inc pr).1 := by
  rw [HalfBook.match_order]
  cases halv : alookup pr hb.levels with
  | none => exact ⟨hhb, hinc⟩
  | some lvl =>
    simp only []
    have hlvl : ∀ o ∈ lvl, P o := fun o ho =>
      hhb o (mem_allOrders.mpr ⟨(pr, lvl), alookup_mem halv, ho⟩)
    obtain ⟨hlvl', hinc'⟩ :=
      matchLevel_preserve P hfill hb.s pr lvl inc hlvl hinc
    by_cases hemp : (matchLevel hb.s pr inc lvl).2.1.isEmpty
    · rw [if_pos hemp]
      refine ⟨?_, hinc'⟩
      intro o ho
      obtain ⟨e, he, hoe⟩ := mem_allOrders.mp ho
      exact hhb o (mem_allOrders.mpr ⟨e, mem_aerase he, hoe⟩)
    · rw [if_neg hemp]
      refine ⟨?_, hinc'⟩
      intro o ho
      obtain ⟨e, he, hoe⟩ := mem_allOrders.mp ho
      rcases mem_amodify he with he | ⟨x, hx, hex⟩
      · exact hhb o (mem_allOrders.mpr ⟨e, he, hoe⟩)
      · rw [hex] at hoe
        exact hlvl' o hoe

theorem matchAll_preserve (P : TradeOrder → Prop)
    (hfill : ∀ (o inc : TradeOrder) (pr : ℚ), P o → P inc →
      ¬inc.remaining_qty ≤ 0 →
      P (o.filled_by inc pr).1 ∧ P (o.filled_by inc pr).2.1) :
    ∀ (ps : List ℚ) (hb : HalfBook) (inc : TradeOrder),
      HBInv P hb → P inc →
      HBInv P (matchAll hb inc ps).2.1 ∧ P (matchAll hb inc ps).1 := by
  intro ps
  induction ps with
  | nil => intro hb inc h1 h2; exact ⟨h1, h2⟩
  | cons p ps ih =>
    intro hb inc h1 h2
    rw [matchAll]
    obtain ⟨hb1, hinc1⟩ := match_order_preserve P hfill hb inc p h1 h2
    by_cases h : (hb.match_order inc p).1.remaining_qty = 0
    · rw [if_pos h]
      exact ⟨hb1, hinc1⟩
    · rw [if_neg h]
      exact ih _ _ hb1 hinc1

theorem hb_add_order_preserve {P : TradeOrder → Prop} {hb : HalfBook}
    {pr : ℚ} {t : TradeOrder} (hhb : HBInv P hb) (ht : P t) :
    HBInv P (hb.add_order pr t) := by
  intro o ho
  rw [HalfBook.add_order] at ho
  cases halv : alookup pr hb.levels with
  | none =>
    rw [halv] at ho
    obtain ⟨e, he, hoe⟩ := mem_allOrders.mp ho
    rcases List.mem_cons.mp he with rfl | he
    · rcases List.mem_singleton.mp hoe with rfl
      exact ht
    · exact hhb o (mem_allOrders.mpr ⟨e, mem_aerase he, hoe⟩)
  | some lvl =>
    rw [halv] at ho
    obtain ⟨e, he, hoe⟩ := mem_allOrders.mp ho
    rcases mem_amodify he with he | ⟨x, hx, hex⟩
    · exact hhb o (mem_allOrders.mpr ⟨e, he, hoe⟩)
    · rw [hex] at hoe
      rcases List.mem_append.mp hoe with hoe | hoe
      · exact hhb o (mem_allOrders.mpr ⟨x, hx, hoe⟩)
      · rcases List.mem_singleton.mp hoe with rfl
        exact ht

theorem hb_modifyOrder_preserve {P : TradeOrder → Prop} {hb : HalfBook}
    {pr : ℚ} {oid : OrderId} {f : TradeOrder → TradeOrder}
    (hhb : HBInv P hb) (hf : ∀ x, P x → P (f x)) :
    HBInv P (hb.modifyOrder pr oid f) := by
  intro o ho
  rw [HalfBook.modifyOrder] at ho
  obtain ⟨e, he, hoe⟩ := mem_allOrders.mp ho
  rcases mem_amodify he with he | ⟨x, hx, hex⟩
  · exact hhb o (mem_allOrders.mpr ⟨e, he, hoe⟩)
  · rw [hex] at hoe
    rcases mem_replaceFirst hoe with hm | ⟨y, hy, rfl⟩
    · exact hhb o (mem_allOrders.mpr ⟨x, hx, hm⟩)
    · exact hf y (hhb y (mem_allOrders.mpr ⟨x, hx, hy⟩))

theorem hb_remove_order_sub {hb : HalfBook} {pr : ℚ} {oid : OrderId} :
    ∀ o ∈ (hb.remove_order pr oid).2.allOrders, o ∈ hb.allOrders := by
  intro o ho
  rw [HalfBook.remove_order] at ho
  cases halv : alookup pr hb.levels with
  | none => rw [halv] at ho; exact ho
  | some lvl =>
    rw [halv] at ho
    simp only [] at ho
    cases hex : extractFirst (fun x => decide (x.id = oid)) lvl with
    | none => rw [hex] at ho; exact ho
    | some xr =>
      rw [hex] at ho
      simp only [] at ho
      by_cases hre : xr.2.isEmpty
      · rw [if_pos hre] at ho
        obtain ⟨e, he, hoe⟩ := mem_allOrders.mp ho
        exact mem_allOrders.mpr ⟨e, mem_aerase he, hoe⟩
      · rw [if_neg hre] at ho
        obtain ⟨e, he, hoe⟩ := mem_allOrders.mp ho
        rcases mem_amodify he with he | ⟨x, hx, hex2⟩
        · exact mem_allOrders.mpr ⟨e, he, hoe⟩
        · rw [hex2] at hoe
          exact mem_allOrders.mpr ⟨(pr, lvl), alookup_mem halv,
            extractFirst_rest_sub (by rw [hex]) o hoe⟩

theorem ob_modifyOrder_preserve {P : TradeOrder → Prop} {ob : OrderBook}
    {oid : OrderId} {f : TradeOrder → TradeOrder} (h : OBInv P ob)
    (hf : ∀ x, P x → P (f x)) : OBInv P (ob.modifyOrder oid f) := by
  rw [OrderBook.modifyOrder]
  cases alookup oid ob.order_loc with
  | none => exact h
  | some sp =>
    exact OBInv_setBook h (hb_modifyOrder_preserve (OBInv_getBook h) hf)

theorem ob_delete_preserve {P : TradeOrder → Prop} {ob : OrderBook}
    {oid : OrderId} (h : OBInv P ob) : OBInv P (ob.delete_order oid).2 := by
  rw [OrderBook.delete_order]
  cases alookup oid ob.order_loc with
  | none => exact h
  | some sp =>
    simp only []
    have h1 : OBInv P
        ({ ob with order_loc := aerase oid ob.order_loc } : OrderBook) :=
      fun o ho => h o ho
    have hbsub : HBInv P
        ((({ ob with order_loc := aerase oid ob.order_loc } :
          OrderBook).getBook sp.1).remove_order sp.2 oid).2 :=
      fun o ho => OBInv_getBook h1 o (hb_remove_order_sub o ho)
    cases ((({ ob with order_loc := aerase oid ob.order_loc} :
        OrderBook).getBook sp.1).remove_order sp.2 oid).1 with
    | none => exact OBInv_setBook h1 hbsub
    | some x => exact OBInv_setBook h1 hbsub

theorem ob_cancel_preserve {P : TradeOrder → Prop} {ob : OrderBook}
    {oid : OrderId} {q : ℚ} (h : OBInv P ob)
    (hc : ∀ o, P o → P (o.cancel q)) : OBInv P (ob.cancel_order oid q).2 := by
  rw [OrderBook.cancel_order]
  cases hg : ob.get_order oid with
  | none => exact h
  | some o =>
    simp only []
    have hmod : OBInv P (ob.modifyOrder oid (fun _ => o.cancel q)) :=
      ob_modifyOrder_preserve h (fun x _ => hc o (h o (get_order_mem hg)))
    by_cases h0 : (o.cancel q).remaining_qty = 0
    · rw [if_pos h0]
      exact ob_delete_preserve hmod
    · rw [if_neg h0]
      exact hmod

theorem ob_add_limit_preserve {P : TradeOrder → Prop} {ob : OrderBook}
    {side : Side} {pr : ℚ} {t : TradeOrder} (h : OBInv P ob) (ht : P t) :
    OBInv P (ob.add_limit_order side pr t) := by
  rw [OrderBook.add_limit_order]
  have h1 : OBInv P ({ ob with
      order_loc := ainsert t.id (side, pr) ob.order_loc } : OrderBook) :=
    fun o ho => h o ho
  exact OBInv_setBook h1 (hb_add_order_preserve (OBInv_getBook h1) ht)

theorem ob_add_system_preserve {P : TradeOrder → Prop} {ob : OrderBook}
    {side : Side} {pr : ℚ} {t : TradeOrder} (h : OBInv P ob) (ht : P t)
    (hmerge : ∀ a, P a → P ((a.merge t).1)) :
    OBInv P (ob.add_system_order side pr t) := by
  rw [OrderBook.add_system_order]
  cases ob.get_order t.id with
  | some _ => exact ob_modifyOrder_preserve h (fun x hx => hmerge x hx)
  | none =>
    simp only []
    have h1 : OBInv P ({ ob with
        order_loc := ainsert t.id (side, pr) ob.order_loc } : OrderBook) :=
      fun o ho => h o ho
    exact OBInv_setBook h1 (hb_add_order_preserve (OBInv_getBook h1) ht)

theorem ob_add_order_preserve (P : TradeOrder → Prop)
    (hfill : ∀ (o inc : TradeOrder) (pr : ℚ), P o → P inc →
      ¬inc.remaining_qty ≤ 0 →
      P (o.filled_by inc pr).1 ∧ P (o.filled_by inc pr).2.1)
    {ob : OrderBook} {req : OrderRequest} (h : OBInv P ob)
    (hreq : P (TradeOrder.fromRequest req))
    (hmerge : ∀ a b, P a → P b → P ((a.merge b).1)) :
    OBInv P (ob.add_order req).2.2 := by
  rw [OrderBook.add_order]
  by_cases hf : fokFails ob req
  · rw [if_pos hf]
    exact h
  · rw [if_neg hf]
    simp only []
    have hmm := matchAll_preserve P hfill
      ((ob.getBook req.side.opposite).iter_prices.filter
        (matchFilter (TradeOrder.fromRequest req)))
      (ob.getBook req.side.opposite) (TradeOrder.fromRequest req)
      (OBInv_getBook h) hreq
    have hbook1 : OBInv P (ob.addOrderMatched req).2.1 := by
      rw [OrderBook.addOrderMatched]
      exact OBInv_setBook h hmm.1
    have htaker : P (ob.addOrderMatched req).1 := by
      rw [OrderBook.addOrderMatched]
      exact hmm.2
    cases hot : (ob.addOrderMatched req).1.order_type with
    | market => exact hbook1
    | ioc p => exact hbook1
    | fok p => exact hbook1
    | limit p =>
      simp only []
      by_cases hc : 0 < p ∧ 0 < (ob.addOrderMatched req).1.remaining_qty
      · rw [if_pos hc]
        exact ob_add_limit_preserve hbook1 htaker
      · rw [if_neg hc]
        exact hbook1
    | systemLevel p =>
      simp only []
      by_cases hc : 0 < p ∧ 0 < (ob.addOrderMatched req).1.remaining_qty
      · rw [if_pos hc]
        exact ob_add_system_preserve hbook1 htaker
          (fun a ha => hmerge a _ ha htaker)
      · rw [if_neg hc]
        exact hbook1

theorem runOps_preserve (P : TradeOrder → Prop)
    (hfill : ∀ (o inc : TradeOrder) (pr : ℚ), P o → P inc →
      ¬inc.remaining_qty ≤ 0 →
      P (o.filled_by inc pr).1 ∧ P (o.filled_by inc pr).2.1)
    (hmerge : ∀ a b, P a → P b → P ((a.merge b).1))
    (hmk : ∀ (id : OrderId) (side : Side) (qty : ℚ) (ot : OrderType),
      0 ≤ qty → P (TradeOrder.fromRequest ⟨id, side, qty, ot⟩))
    (ops : List EngineOp) (hwf : ∀ op ∈ ops, op.wf)
    (hcanc : ∀ op ∈ ops, ∀ oid q, op = .cancel oid q →
      ∀ o, P o → P (o.cancel q)) :
    OBInv P (runOps ops).book := by
  rw [runOps]
  have hinit : OBInv P EngineState.init.book := by
    intro o ho
    exact absurd ho (List.not_mem_nil o)
  revert hinit
  generalize EngineState.init = st
  induction ops generalizing st with
  | nil => intro h; exact h
  | cons op ops ih =>
    intro hst
    rw [List.foldl_cons]
    refine ih (fun x hx => hwf x (List.mem_cons_of_mem _ hx))
      (fun x hx oid q heq => hcanc x (List.mem_cons_of_mem _ hx) oid q heq)
      _ ?_
    cases op with
    | add side qty ot =>
      have hq : 0 ≤ qty := hwf _ (List.mem_cons_self _ _)
      exact ob_add_order_preserve P hfill hst (hmk _ _ _ _ hq) hmerge
    | cancel oid q =>
      have hq : 0 ≤ q := hwf _ (List.mem_cons_self _ _)
      exact ob_cancel_preserve hst
        (hcanc _ (List.mem_cons_self _ _) oid q rfl)
    | delete oid => exact ob_delete_preserve hst

/-! ### Claim C7: TradeOrder accounting invariants -/

theorem sumFills_append (a b : List Fill) :
    sumFills (a ++ b) = sumFills a + sumFills b := by
  simp [sumFills]

theorem fill_closure_bounds :
    ∀ (o inc : TradeOrder) (pr : ℚ),
      (0 ≤ o.remaining_qty ∧ o.remaining_qty ≤ o.initial_qty) →
      (0 ≤ inc.remaining_qty ∧ inc.remaining_qty ≤ inc.initial_qty) →
      ¬inc.remaining_qty ≤ 0 →
      (0 ≤ (o.filled_by inc pr).1.remaining_qty ∧
        (o.filled_by inc pr).1.remaining_qty ≤
          (o.filled_by inc pr).1.initial_qty) ∧
      (0 ≤ (o.filled_by inc pr).2.1.remaining_qty ∧
        (o.filled_by inc pr).2.1.remaining_qty ≤
          (o.filled_by inc pr).2.1.initial_qty) := by
  intro o inc pr ho hi hpos
  obtain ⟨ho1, ho2⟩ := ho
  obtain ⟨hi1, hi2⟩ := hi
  have hp : 0 < inc.remaining_qty := lt_of_not_le hpos
  have h1 : min inc.remaining_qty o.remaining_qty ≤ o.remaining_qty :=
    min_le_right _ _
  have h2 : min inc.remaining_qty o.remaining_qty ≤ inc.remaining_qty :=
    min_le_left _ _
  have h3 : 0 ≤ min inc.remaining_qty o.remaining_qty :=
    le_min (le_of_lt hp) ho1
  refine ⟨⟨?_, ?_⟩, ?_, ?_⟩ <;> simp only [TradeOrder.filled_by] <;> linarith

theorem merge_closure_bounds :
    ∀ a b : TradeOrder,
      (0 ≤ a.remaining_qty ∧ a.remaining_qty ≤ a.initial_qty) →
      (0 ≤ b.remaining_qty ∧ b.remaining_qty ≤ b.initial_qty) →
      0 ≤ (a.merge b).1.remaining_qty ∧
        (a.merge b).1.remaining_qty ≤ (a.merge b).1.initial_qty := by
  intro a b ⟨ha1, ha2⟩ ⟨hb1, hb2⟩
  rw [TradeOrder.merge]
  split_ifs
  · exact ⟨by simp only []; linarith, by simp only []; linarith⟩
  · exact ⟨ha1, ha2⟩

theorem fill_closure_sum :
    ∀ (o inc : TradeOrder) (pr : ℚ),
      o.initial_qty - o.remaining_qty = sumFills o.fills →
      inc.initial_qty - inc.remaining_qty = sumFills inc.fills →
      ¬inc.remaining_qty ≤ 0 →
      (o.filled_by inc pr).1.initial_qty -
          (o.filled_by inc pr).1.remaining_qty =
        sumFills (o.filled_by inc pr).1.fills ∧
      (o.filled_by inc pr).2.1.initial_qty -
          (o.filled_by inc pr).2.1.remaining_qty =
        sumFills (o.filled_by inc pr).2.1.fills := by
  intro o inc pr ho hi _
  constructor
  · simp only [TradeOrder.filled_by, sumFills_append]
    rw [show sumFills [(⟨min inc.remaining_qty o.remaining_qty, pr,
        inc.id⟩ : Fill)] = min inc.remaining_qty o.remaining_qty by
      simp [sumFills]]
    linarith
  · simp only [TradeOrder.filled_by, sumFills_append]
    rw [show sumFills [(⟨min inc.remaining_qty o.remaining_qty, pr,
        o.id⟩ : Fill)] = min inc.remaining_qty o.remaining_qty by
      simp [sumFills]]
    linarith

theorem merge_closure_sum :
    ∀ a b : TradeOrder,
      a.initial_qty - a.remaining_qty = sumFills a.fills →
      b.initial_qty - b.remaining_qty = sumFills b.fills →
      (a.merge b).1.initial_qty - (a.merge b).1.remaining_qty =
        sumFills (a.merge b).1.fills := by
  intro a b ha hb
  rw [TradeOrder.merge]
  split_ifs
  · simp only [sumFills_append]
    linarith
  · exact ha

/-- C7 (amended).  Under well-formed inputs (non-negative quantities, the
engine's §7 contract), every `TradeOrder` resting in the book after any
sequence of `add_order`/`cancel_order`/`delete_order` calls satisfies
`0 ≤ remaining_qty ≤ initial_qty`; and for sequences that contain no
`cancel_order` (which reduces `remaining_qty` without recording a fill),
`initial_qty − remaining_qty` equals the sum of the order's fill
quantities — covering merged `SystemLevel` orders, whose accumulated
`initial_qty` and appended fills preserve the equation. -/
theorem trade_order_accounting (ops : List EngineOp)
    (hwf : ∀ op ∈ ops, op.wf) :
    (∀ o ∈ (runOps ops).book.allOrders,
      0 ≤ o.remaining_qty ∧ o.remaining_qty ≤ o.initial_qty ∧
        0 ≤ o.initial_qty) ∧
    ((∀ op ∈ ops, ∀ oid q, op ≠ EngineOp.cancel oid q) →
      ∀ o ∈ (runOps ops).book.allOrders,
        o.initial_qty - o.remaining_qty = sumFills o.fills) := by
  constructor
  · intro o ho
    have hrun := runOps_preserve
      (fun o => 0 ≤ o.remaining_qty ∧ o.remaining_qty ≤ o.initial_qty)
      fill_closure_bounds merge_closure_bounds
      (fun id side qty ot hq => ⟨hq, le_refl _⟩) ops hwf
      (fun op hop oid q heq o' hP => ?hcanc)
    case hcanc =>
      have hq : 0 ≤ q := by
        have := hwf op hop
        rw [heq] at this
        exact this
      obtain ⟨h1, h2⟩ := hP
      have hm1 : min q o'.remaining_qty ≤ o'.remaining_qty := min_le_right _ _
      have hm2 : 0 ≤ min q o'.remaining_qty := le_min hq h1
      exact ⟨by simp only [TradeOrder.cancel]; linarith,
        by simp only [TradeOrder.cancel]; linarith⟩
    obtain ⟨h1, h2⟩ := hrun o ho
    exact ⟨h1, h2, le_trans h1 h2⟩
  · intro hnc o ho
    exact runOps_preserve
      (fun o => o.initial_qty - o.remaining_qty = sumFills o.fills)
      fill_closure_sum merge_closure_sum
      (fun id side qty ot _ => by simp [TradeOrder.fromRequest, sumFills])
      ops hwf
      (fun op hop oid q heq => absurd heq (hnc op hop oid q)) o ho

/-- C7 counterexample: after `add_order(Bid, 100, Limit 10)` followed by
`cancel_order(id, 40)` — both legal engine operations — the resting order
has `initial_qty − remaining_qty = 40` but an empty fill history summing to
0: the fills equation of the claim fails on cancel paths. -/
theorem trade_order_accounting_counterexample :
    ((runOps [.add .bid 100 (.limit 10),
        .cancel (.fresh 0) 40]).book.get_order (.fresh 0)).map
      (fun o => (o.initial_qty - o.remaining_qty, sumFills o.fills)) =
      some (40, 0) ∧ (40 : ℚ) ≠ 0 := by
  decide

/-- C7 witness: one well-formed limit submission; the resting order
satisfies both the bounds and the fills equation. -/
theorem trade_order_accounting_witness :
    (0 ≤ (100 : ℚ) ∧ (100 : ℚ) ≤ 100 ∧ 0 ≤ (100 : ℚ)) ∧
    (100 : ℚ) - 100 = sumFills [] := by
  have h := trade_order_accounting [.add .ask 100 (.limit 10)] (by decide)
  constructor
  · exact h.1 ⟨.fresh 0, .ask, 100, 100, [], .limit 10⟩ (by decide)
  · exact h.2 (fun op hop oid q => by
      rw [List.mem_singleton.mp hop]
      exact fun heq => EngineOp.noConfusion heq)
      ⟨.fresh 0, .ask, 100, 100, [], .limit 10⟩ (by decide)

/-! ### Claim C8: the two assertion points never fire -/

/-- Every order in the half-book tagged `s` records side `s`, and an order
whose id is the deterministic `fromBytes q` id is a `SystemLevel q` order
resting exactly at price `q`. -/
def SideSysInv (s : Side) (hb : HalfBook) : Prop :=
  ∀ e ∈ hb.levels, ∀ o ∈ e.2, o.side = s ∧
    ∀ q, o.id = OrderId.fromBytes q →
      o.order_type = OrderType.systemLevel q ∧ e.1 = q

/-- The book-wide side/system-id invariant. -/
def BookSysInv (ob : OrderBook) : Prop :=
  SideSysInv .ask ob.asks ∧ SideSysInv .bid ob.bids

/-- Ids the generator can have handed out by the time the counter is `ctr`. -/
def IdOk (ctr : ℕ) : OrderId → Prop
  | .fresh k => k < ctr
  | .fromBytes _ => True

/-- The engine invariant for C8: the book invariant plus every locator key
being a previously generated id. -/
def EngInv (st : EngineState) : Prop :=
  BookSysInv st.book ∧ ∀ e ∈ st.book.order_loc, IdOk st.ctr e.1

theorem IdOk_mono {n m : ℕ} {i : OrderId} (h : n ≤ m) (hi : IdOk n i) :
    IdOk m i := by
  cases i with
  | fresh k => exact lt_of_lt_of_le hi h
  | fromBytes q => trivial

theorem mem_ainsert {K V : Type} [DecidableEq K] {k : K} {v : V}
    {e : K × V} {m : List (K × V)} (h : e ∈ ainsert k v m) :
    e = (k, v) ∨ e ∈ m := by
  rw [ainsert] at h
  rcases List.mem_cons.mp h with h | h
  · exact Or.inl h
  · exact Or.inr (mem_aerase h)

theorem merge_fields (a b : TradeOrder) :
    (a.merge b).1.side = a.side ∧ (a.merge b).1.id = a.id ∧
    (a.merge b).1.order_type = a.order_type := by
  rw [TradeOrder.merge]
  split_ifs
  · exact ⟨rfl, rfl, rfl⟩
  · exact ⟨rfl, rfl, rfl⟩

theorem BookSysInv_getBook {ob : OrderBook} {s : Side} (h : BookSysInv ob) :
    SideSysInv s (ob.getBook s) := by
  cases s
  · exact h.1
  · exact h.2

theorem BookSysInv_setBook {ob : OrderBook} {s : Side} {hb : HalfBook}
    (h : BookSysInv ob) (hs : SideSysInv s hb) :
    BookSysInv (ob.setBook s hb) := by
  cases s
  · exact ⟨hs, h.2⟩
  · exact ⟨h.1, hs⟩

theorem BookSysInv_loc_update {ob : OrderBook}
    {L : List (OrderId × Side × ℚ)} (h : BookSysInv ob) :
    BookSysInv ({ ob with order_loc := L } : OrderBook) := h

/-- A per-order property that `filled_by` cannot destroy (it only changes
`remaining_qty` and `fills`) survives the level loop. -/
theorem matchLevel_level_at (Q : TradeOrder → Prop)
    (hQ : ∀ (o inc : TradeOrder) (pr2 : ℚ), Q o → Q (o.filled_by inc pr2).1)
    (s : Side) (pr : ℚ) :
    ∀ (l : List TradeOrder) (inc : TradeOrder), (∀ o ∈ l, Q o) →
      ∀ o' ∈ (matchLevel s pr inc l).2.1, Q o' := by
  intro l
  induction l with
  | nil => intro inc hl o' ho'; simp [matchLevel] at ho'
  | cons o rest ih =>
    intro inc hl o' ho'
    rw [matchLevel] at ho'
    by_cases h1 : inc.remaining_qty ≤ 0
    · rw [if_pos h1] at ho'
      exact hl o' ho'
    · rw [if_neg h1] at ho'
      by_cases h2 : 0 < (o.filled_by inc pr).1.remaining_qty
      · rw [if_pos h2] at ho'
        rcases List.mem_cons.mp ho' with rfl | ho'
        · exact hQ o inc pr (hl o (List.mem_cons_self _ _))
        · exact hl o' (List.mem_cons_of_mem _ ho')
      · rw [if_neg h2] at ho'
        exact ih ((o.filled_by inc pr).2.1)
          (fun x hx => hl x (List.mem_cons_of_mem _ hx)) o' ho'

theorem mem_amodify_eq {K V : Type} [DecidableEq K] {k : K} {f : V → V}
    {e : K × V} {m : List (K × V)} (h : e ∈ amodify k f m) :
    e ∈ m ∨ ∃ v, (k, v) ∈ m ∧ e = (k, f v) := by
  induction m with
  | nil => simp [amodify] at h
  | cons x rest ih =>
    rw [amodify] at h
    by_cases hx : x.1 = k
    · rw [if_pos hx] at h
      rcases List.mem_cons.mp h with h | h
      · refine Or.inr ⟨x.2, ?_, by rw [h, hx]⟩
        have : x = (k, x.2) := by rw [Prod.mk.injEq]; exact ⟨hx, rfl⟩
        exact this ▸ List.mem_cons_self _ _
      · exact Or.inl (List.mem_cons_of_mem _ h)
    · rw [if_neg hx] at h
      rcases List.mem_cons.mp h with h | h
      · exact Or.inl (h ▸ List.mem_cons_self _ _)
      · rcases ih h with h | ⟨v, hv, hev⟩
        · exact Or.inl (List.mem_cons_of_mem _ h)
        · exact Or.inr ⟨v, List.mem_cons_of_mem _ hv, hev⟩

theorem hb_match_order_at {s : Side} {hb : HalfBook} {inc : TradeOrder}
    {pr : ℚ} (h : SideSysInv s hb) :
    SideSysInv s (hb.match_order inc pr).2.1 := by
  rw [HalfBook.match_order]
  cases halv : alookup pr hb.levels with
  | none => exact h
  | some lvl =>
    simp only []
    by_cases hemp : (matchLevel hb.s pr inc lvl).2.1.isEmpty
    · rw [if_pos hemp]
      intro e he o ho
      exact h e (mem_aerase he) o ho
    · rw [if_neg hemp]
      intro e he o ho
      rcases mem_amodify_eq he with he | ⟨v, hv, hev⟩
      · exact h e he o ho
      · rw [hev] at ho ⊢
        refine matchLevel_level_at
          (fun o => o.side = s ∧ ∀ q, o.id = OrderId.fromBytes q →
            o.order_type = OrderType.systemLevel q ∧ pr = q)
          (fun o inc2 pr2 hQ => hQ) hb.s pr lvl inc
          (fun x hx => h (pr, lvl) (alookup_mem halv) x hx) o ho

theorem hb_add_order_at {s : Side} {hb : HalfBook} {price : ℚ}
    {o : TradeOrder} (h : SideSysInv s hb)
    (ho : o.side = s ∧ ∀ q, o.id = OrderId.fromBytes q →
      o.order_type = OrderType.systemLevel q ∧ price = q) :
    SideSysInv s (hb.add_order price o) := by
  rw [HalfBook.add_order]
  cases halv : alookup price hb.levels with
  | some lvl =>
    intro e he o' ho'
    rcases mem_amodify_eq he with he | ⟨v, hv, hev⟩
    · exact h e he o' ho'
    · rw [hev] at ho' ⊢
      rcases List.mem_append.mp ho' with ho' | ho'
      · exact h (price, v) hv o' ho'
      · rw [List.mem_singleton.mp ho']
        exact ho
  | none =>
    intro e he o' ho'
    rcases mem_ainsert he with he | he
    · rw [he] at ho' ⊢
      rw [List.mem_singleton.mp ho']
      exact ho
    · exact h e he o' ho'

theorem hb_modifyOrder_at {s : Side} {hb : HalfBook} {price : ℚ}
    {oid : OrderId} {f : TradeOrder → TradeOrder}
    (hf : ∀ x, (f x).side = x.side ∧ (f x).id = x.id ∧
      (f x).order_type = x.order_type)
    (h : SideSysInv s hb) : SideSysInv s (hb.modifyOrder price oid f) := by
  rw [HalfBook.modifyOrder]
  intro e he o' ho'
  rcases mem_amodify_eq he with he | ⟨v, hv, hev⟩
  · exact h e he o' ho'
  · rw [hev] at ho' ⊢
    rcases mem_replaceFirst ho' with ho' | ⟨x, hx, hfx⟩
    · exact h (price, v) hv o' ho'
    · have hQ := h (price, v) hv x hx
      rw [hfx]
      refine ⟨(hf x).1.trans hQ.1, fun q hq => ?_⟩
      rw [(hf x).2.1] at hq
      exact ⟨(hf x).2.2.trans (hQ.2 q hq).1, (hQ.2 q hq).2⟩

theorem matchAll_at {s : Side} {hb : HalfBook} {inc : TradeOrder}
    {ps : List ℚ} (h : SideSysInv s hb) :
    SideSysInv s (matchAll hb inc ps).2.1 := by
  induction ps generalizing hb inc with
  | nil => exact h
  | cons p ps ih =>
    rw [matchAll]
    by_cases hz : (hb.match_order inc p).1.remaining_qty = 0
    · rw [if_pos hz]
      exact hb_match_order_at h
    · rw [if_neg hz]
      exact ih (hb_match_order_at h)

theorem addOrderMatched_BookSysInv {ob : OrderBook} {req : OrderRequest}
    (h : BookSysInv ob) : BookSysInv (ob.addOrderMatched req).2.1 := by
  rw [OrderBook.addOrderMatched]
  exact BookSysInv_setBook h (matchAll_at (BookSysInv_getBook h))

theorem ob_modifyOrder_at {ob : OrderBook} {oid : OrderId}
    {f : TradeOrder → TradeOrder}
    (hf : ∀ x, (f x).side = x.side ∧ (f x).id = x.id ∧
      (f x).order_type = x.order_type)
    (h : BookSysInv ob) : BookSysInv (ob.modifyOrder oid f) := by
  rw [OrderBook.modifyOrder]
  cases alookup oid ob.order_loc with
  | none => exact h
  | some sp =>
    exact BookSysInv_setBook h (hb_modifyOrder_at hf (BookSysInv_getBook h))

theorem matchLevel_inc_nonneg {s : Side} {pr : ℚ} :
    ∀ {l : List TradeOrder} {inc : TradeOrder}, 0 ≤ inc.remaining_qty →
      0 ≤ (matchLevel s pr inc l).1.remaining_qty := by
  intro l
  induction l with
  | nil => intro inc h; exact h
  | cons o rest ih =>
    intro inc h
    rw [matchLevel]
    by_cases h1 : inc.remaining_qty ≤ 0
    · rw [if_pos h1]; exact h
    · rw [if_neg h1]
      have hnn : 0 ≤ (o.filled_by inc pr).2.1.remaining_qty := by
        show 0 ≤ inc.remaining_qty - min inc.remaining_qty o.remaining_qty
        have := min_le_left inc.remaining_qty o.remaining_qty
        linarith
      by_cases h2 : 0 < (o.filled_by inc pr).1.remaining_qty
      · rw [if_pos h2]
        exact hnn
      · rw [if_neg h2]
        exact ih hnn

theorem matchLevel_empty_or_zero {s : Side} {pr : ℚ} :
    ∀ {l : List TradeOrder} {inc : TradeOrder},
      (matchLevel s pr inc l).2.1 = [] ∨
        (matchLevel s pr inc l).1.remaining_qty ≤ 0 := by
  intro l
  induction l with
  | nil => exact fun {inc} => Or.inl rfl
  | cons o rest ih =>
    intro inc
    rw [matchLevel]
    by_cases h1 : inc.remaining_qty ≤ 0
    · rw [if_pos h1]; exact Or.inr h1
    · rw [if_neg h1]
      by_cases h2 : 0 < (o.filled_by inc pr).1.remaining_qty
      · rw [if_pos h2]
        refine Or.inr ?_
        have hlt : min inc.remaining_qty o.remaining_qty < o.remaining_qty := by
          have : 0 < o.remaining_qty - min inc.remaining_qty o.remaining_qty := h2
          linarith
        have heq : min inc.remaining_qty o.remaining_qty = inc.remaining_qty := by
          rcases min_choice inc.remaining_qty o.remaining_qty with hc | hc
          · exact hc
          · exact absurd (hc ▸ hlt) (lt_irrefl _)
        show inc.remaining_qty - min inc.remaining_qty o.remaining_qty ≤ 0
        rw [heq, sub_self]
      · rw [if_neg h2]
        exact ih

theorem match_order_nonneg {hb : HalfBook} {inc : TradeOrder} {pr : ℚ}
    (h : 0 ≤ inc.remaining_qty) :
    0 ≤ (hb.match_order inc pr).1.remaining_qty := by
  rw [HalfBook.match_order]
  cases alookup pr hb.levels with
  | none => exact h
  | some lvl =>
    simp only []
    by_cases hemp : (matchLevel hb.s pr inc lvl).2.1.isEmpty
    · rw [if_pos hemp]
      exact matchLevel_inc_nonneg h
    · rw [if_neg hemp]
      exact matchLevel_inc_nonneg h

theorem match_order_cleared {hb : HalfBook} {inc : TradeOrder} {pr : ℚ}
    (h : 0 ≤ inc.remaining_qty)
    (hne : (hb.match_order inc pr).1.remaining_qty ≠ 0) :
    alookup pr (hb.match_order inc pr).2.1.levels = none := by
  rw [HalfBook.match_order] at hne ⊢
  cases halv : alookup pr hb.levels with
  | none => exact halv
  | some lvl =>
    rw [halv] at hne
    simp only [] at hne ⊢
    by_cases hemp : (matchLevel hb.s pr inc lvl).2.1.isEmpty
    · rw [if_pos hemp]
      exact alookup_aerase_self
    · rw [if_neg hemp] at hne ⊢
      rcases @matchLevel_empty_or_zero hb.s pr lvl inc with hc | hc
      · rw [hc] at hemp
        exact absurd rfl hemp
      · exact absurd (le_antisymm hc (matchLevel_inc_nonneg h)) hne

theorem match_order_keys_none {hb : HalfBook} {inc : TradeOrder} {pr p2 : ℚ}
    (h : alookup p2 hb.levels = none) :
    alookup p2 (hb.match_order inc pr).2.1.levels = none := by
  rw [HalfBook.match_order]
  cases halv : alookup pr hb.levels with
  | none => exact h
  | some lvl =>
    simp only []
    have hne : p2 ≠ pr := by
      intro he
      rw [he, halv] at h
      exact Option.noConfusion h
    by_cases hemp : (matchLevel hb.s pr inc lvl).2.1.isEmpty
    · rw [if_pos hemp]
      rw [show ({ hb with levels := aerase pr hb.levels } : HalfBook).levels
        = aerase pr hb.levels from rfl, alookup_aerase_ne hne]
      exact h
    · rw [if_neg hemp]
      rw [show ({ hb with
          levels := amodify pr (fun _ => (matchLevel hb.s pr inc lvl).2.1)
            hb.levels } : HalfBook).levels
        = amodify pr (fun _ => (matchLevel hb.s pr inc lvl).2.1) hb.levels
        from rfl, alookup_amodify_ne hne]
      exact h

theorem matchAll_keys_none {p2 : ℚ} :
    ∀ {ps : List ℚ} {hb : HalfBook} {inc : TradeOrder},
      alookup p2 hb.levels = none →
      alookup p2 (matchAll hb inc ps).2.1.levels = none := by
  intro ps
  induction ps with
  | nil => intro hb inc h; exact h
  | cons p ps ih =>
    intro hb inc h
    rw [matchAll]
    by_cases hz : (hb.match_order inc p).1.remaining_qty = 0
    · rw [if_pos hz]
      exact match_order_keys_none h
    · rw [if_neg hz]
      exact ih (match_order_keys_none h)

theorem matchAll_cleared :
    ∀ {ps : List ℚ} {hb : HalfBook} {inc : TradeOrder},
      0 ≤ inc.remaining_qty →
      (matchAll hb inc ps).1.remaining_qty ≠ 0 →
      ∀ p ∈ ps, alookup p (matchAll hb inc ps).2.1.levels = none := by
  intro ps
  induction ps with
  | nil => intro hb inc _ _ p hp; exact absurd hp (List.not_mem_nil p)
  | cons p0 ps ih =>
    intro hb inc h hne p hp
    rw [matchAll] at hne ⊢
    by_cases hz : (hb.match_order inc p0).1.remaining_qty = 0
    · rw [if_pos hz] at hne
      exact absurd hz hne
    · rw [if_neg hz] at hne ⊢
      rcases List.mem_cons.mp hp with rfl | hp
      · exact matchAll_keys_none (match_order_cleared h hz)
      · exact ih (match_order_nonneg h) hne p hp

theorem modifyOrder_order_loc (ob : OrderBook) (oid : OrderId)
    (f : TradeOrder → TradeOrder) :
    (ob.modifyOrder oid f).order_loc = ob.order_loc := by
  rw [OrderBook.modifyOrder]
  cases alookup oid ob.order_loc with
  | none => rfl
  | some sp => exact setBook_order_loc

/-- One `add_order` call preserves the book invariant, and every locator
entry afterwards either carries the request's id or was already present. -/
theorem add_order_EngInv {ob : OrderBook} {req : OrderRequest}
    (hB : BookSysInv ob)
    (hreq : ∀ q, req.id = OrderId.fromBytes q →
      req.order_type = OrderType.systemLevel q) :
    BookSysInv (ob.add_order req).2.2 ∧
    ∀ e ∈ (ob.add_order req).2.2.order_loc, e.1 = req.id ∨ e ∈ ob.order_loc := by
  rw [OrderBook.add_order]
  by_cases hf : fokFails ob req
  · rw [if_pos hf]
    exact ⟨hB, fun e he => Or.inr he⟩
  · rw [if_neg hf]
    simp only []
    have hB1 := @addOrderMatched_BookSysInv ob req hB
    have hloc1 := addOrderMatched_order_loc ob req
    have hfields := addOrderMatched_inc_fields ob req
    cases hot : (ob.addOrderMatched req).1.order_type with
    | market => exact ⟨hB1, fun e he => Or.inr (by rw [hloc1] at he; exact he)⟩
    | ioc p => exact ⟨hB1, fun e he => Or.inr (by rw [hloc1] at he; exact he)⟩
    | fok p => exact ⟨hB1, fun e he => Or.inr (by rw [hloc1] at he; exact he)⟩
    | limit p =>
      have hot' := hot
      rw [hfields.2.2.1] at hot'
      simp only []
      by_cases hc : 0 < p ∧ 0 < (ob.addOrderMatched req).1.remaining_qty
      · rw [if_pos hc]
        rw [OrderBook.add_limit_order]
        constructor
        · refine BookSysInv_setBook (BookSysInv_loc_update hB1)
            (hb_add_order_at (BookSysInv_getBook (BookSysInv_loc_update hB1))
              ⟨rfl, fun q hq => absurd ((hreq q (by
                rw [← hfields.1]; exact hq)).symm.trans hot')
                (fun hcl => OrderType.noConfusion hcl)⟩)
        · intro e he
          rw [setBook_order_loc] at he
          rcases mem_ainsert (show e ∈ ainsert (ob.addOrderMatched req).1.id
              ((ob.addOrderMatched req).1.side, p)
              (ob.addOrderMatched req).2.1.order_loc from he) with he1 | he1
          · exact Or.inl (by rw [he1, hfields.1])
          · exact Or.inr (by rw [hloc1] at he1; exact he1)
      · rw [if_neg hc]
        exact ⟨hB1, fun e he => Or.inr (by rw [hloc1] at he; exact he)⟩
    | systemLevel p =>
      have hot' := hot
      rw [hfields.2.2.1] at hot'
      simp only []
      by_cases hc : 0 < p ∧ 0 < (ob.addOrderMatched req).1.remaining_qty
      · rw [if_pos hc]
        rw [OrderBook.add_system_order]
        cases hg : (ob.addOrderMatched req).2.1.get_order
            (ob.addOrderMatched req).1.id with
        | some ex =>
          refine ⟨ob_modifyOrder_at (fun x =>
            ⟨(merge_fields x _).1, (merge_fields x _).2.1,
             (merge_fields x _).2.2⟩) hB1, fun e he => ?_⟩
          rw [modifyOrder_order_loc] at he
          exact Or.inr (by rw [hloc1] at he; exact he)
        | none =>
          constructor
          · refine BookSysInv_setBook (BookSysInv_loc_update hB1)
              (hb_add_order_at (BookSysInv_getBook (BookSysInv_loc_update hB1))
                ⟨rfl, fun q hq => ?_⟩)
            have h1 : req.order_type = OrderType.systemLevel q :=
              hreq q (by rw [← hfields.1]; exact hq)
            have h2 : OrderType.systemLevel p = OrderType.systemLevel q :=
              hot'.symm.trans h1
            have h3 : p = q := by injection h2
            exact ⟨by rw [hfields.2.2.1, h1], h3⟩
          · intro e he
            rw [setBook_order_loc] at he
            rcases mem_ainsert (show e ∈ ainsert (ob.addOrderMatched req).1.id
                ((ob.addOrderMatched req).1.side, p)
                (ob.addOrderMatched req).2.1.order_loc from he) with he1 | he1
            · exact Or.inl (by rw [he1, hfields.1])
            · exact Or.inr (by rw [hloc1] at he1; exact he1)
      · rw [if_neg hc]
        exact ⟨hB1, fun e he => Or.inr (by rw [hloc1] at he; exact he)⟩

theorem step_add_EngInv {st : EngineState} {side : Side} {qty : ℚ}
    {ot : OrderType} (h : EngInv st) :
    EngInv (st.step (EngineOp.add side qty ot)) := by
  rcases h with ⟨hB, hloc⟩
  have hreq : ∀ q,
      (⟨(ot.generateId st.ctr).1, side, qty, ot⟩ : OrderRequest).id =
        OrderId.fromBytes q →
      (⟨(ot.generateId st.ctr).1, side, qty, ot⟩ : OrderRequest).order_type =
        OrderType.systemLevel q := by
    intro q hq
    cases ot with
    | market => exact absurd hq (fun hcl => OrderId.noConfusion hcl)
    | limit p => exact absurd hq (fun hcl => OrderId.noConfusion hcl)
    | ioc p => exact absurd hq (fun hcl => OrderId.noConfusion hcl)
    | fok p => exact absurd hq (fun hcl => OrderId.noConfusion hcl)
    | systemLevel p =>
      have hpq : p = q := by
        have : OrderId.fromBytes p = OrderId.fromBytes q := hq
        injection this
      show OrderType.systemLevel p = OrderType.systemLevel q
      rw [hpq]
  have hiok : IdOk (ot.generateId st.ctr).2 (ot.generateId st.ctr).1 := by
    cases ot with
    | market => exact Nat.lt_succ_self _
    | limit p => exact Nat.lt_succ_self _
    | ioc p => exact Nat.lt_succ_self _
    | fok p => exact Nat.lt_succ_self _
    | systemLevel p => trivial
  have hctrle : st.ctr ≤ (ot.generateId st.ctr).2 := by
    cases ot with
    | market => exact Nat.le_succ _
    | limit p => exact Nat.le_succ _
    | ioc p => exact Nat.le_succ _
    | fok p => exact Nat.le_succ _
    | systemLevel p => exact le_refl _
  obtain ⟨hB2, hloc2⟩ := @add_order_EngInv st.book
    ⟨(ot.generateId st.ctr).1, side, qty, ot⟩ hB hreq
  refine ⟨hB2, fun e he => ?_⟩
  rcases hloc2 e he with he1 | he1
  · rw [he1]; exact hiok
  · exact IdOk_mono hctrle (hloc e he1)

theorem runOps_EngInv_aux :
    ∀ (ops : List EngineOp) (st : EngineState), EngInv st →
      (∀ op ∈ ops, ∃ side qty ot, op = EngineOp.add side qty ot) →
      EngInv (ops.foldl EngineState.step st) := by
  intro ops
  induction ops with
  | nil => exact fun st h _ => h
  | cons op ops ih =>
    intro st h hadd
    rw [List.foldl_cons]
    refine ih _ ?_ (fun o ho => hadd o (List.mem_cons_of_mem _ ho))
    rcases hadd op (List.mem_cons_self _ _) with ⟨side2, qty2, ot2, rfl⟩
    exact step_add_EngInv h

/-- Any pure sequence of `add_order` submissions maintains the engine
invariant from the empty book. -/
theorem runOps_EngInv (ops : List EngineOp)
    (hadd : ∀ op ∈ ops, ∃ side qty ot, op = EngineOp.add side qty ot) :
    EngInv (runOps ops) :=
  runOps_EngInv_aux ops EngineState.init
    ⟨⟨fun e he => absurd he (List.not_mem_nil e),
      fun e he => absurd he (List.not_mem_nil e)⟩,
     fun e he => absurd he (List.not_mem_nil e)⟩ hadd

/-- Decompose a successful `OrderBook::get_order` into its locator entry and
the containing level. -/
theorem get_order_decomp {ob : OrderBook} {oid : OrderId} {o : TradeOrder}
    (h : ob.get_order oid = some o) :
    ∃ sp lvl, alookup oid ob.order_loc = some sp ∧
      alookup sp.2 (ob.getBook sp.1).levels = some lvl ∧ o ∈ lvl ∧
      o.id = oid := by
  rw [OrderBook.get_order] at h
  cases hsp : alookup oid ob.order_loc with
  | none => rw [hsp] at h; simp at h
  | some sp =>
    rw [hsp] at h
    simp only [Option.some_bind] at h
    rw [HalfBook.get_order] at h
    cases hlv : alookup sp.2 (ob.getBook sp.1).levels with
    | none => rw [hlv] at h; simp at h
    | some lvl =>
      rw [hlv] at h
      simp only [Option.some_bind] at h
      have hmem := List.mem_of_find?_eq_some h
      have hpred : (fun o => decide (o.id = oid)) o = true := by
        have := List.find?_some h
        simpa using this
      exact ⟨sp, lvl, rfl, hlv, hmem, of_decide_eq_true hpred⟩

/-- After the matching phase of `add_order`, any price of the opposite book
that lies in the taker's window is cleared whenever the taker still has
remaining quantity (matching stops only on an exhausted taker or an
exhausted window). -/
theorem addOrderMatched_opposite_cleared {ob : OrderBook} {req : OrderRequest}
    (hq : 0 ≤ req.qty)
    (hrem : (ob.addOrderMatched req).1.remaining_qty ≠ 0)
    (p : ℚ) (hfil : matchFilter (TradeOrder.fromRequest req) p = true) :
    alookup p ((ob.addOrderMatched req).2.1.getBook req.side.opposite).levels
      = none := by
  rw [OrderBook.addOrderMatched] at hrem ⊢
  simp only [] at hrem ⊢
  rw [getBook_setBook_self]
  by_cases hpre :
      alookup p (ob.getBook req.side.opposite).levels = none
  · exact matchAll_keys_none hpre
  · refine matchAll_cleared
      (show (0:ℚ) ≤ (TradeOrder.fromRequest req).remaining_qty from hq)
      hrem p (List.mem_filter.mpr ⟨?_, hfil⟩)
    rw [mem_iter_prices, HalfBook.keys]
    cases halv : alookup p (ob.getBook req.side.opposite).levels with
    | none => exact absurd halv hpre
    | some lvl0 =>
      exact List.mem_map.mpr ⟨(p, lvl0), alookup_mem halv, rfl⟩

/-- C8.  Assertion unreachability: along any sequence of `add_order`
submissions from the empty book, at the two `assert_eq!` sites of `book.rs`
the asserted condition always holds for the next valid submission: (i) when
the new order is a resting `Limit`, `add_limit_order`'s locator insert finds
no prior entry under the freshly generated id; (ii) when the new order is a
resting `SystemLevel` and `add_system_order` finds an existing order under
the deterministic derived id, that order has the same side and order type,
so `TradeOrder::merge` accepts (`mergable` holds) and never returns the
rejected order. -/
theorem assertion_unreachability (ops : List EngineOp)
    (hadd : ∀ op ∈ ops, ∃ side qty ot, op = EngineOp.add side qty ot)
    (side : Side) (qty : ℚ) (ot : OrderType) (hq : 0 ≤ qty) :
    (∀ p, ot = OrderType.limit p →
      alookup (ot.generateId (runOps ops).ctr).1
        ((runOps ops).book.addOrderMatched
          ⟨(ot.generateId (runOps ops).ctr).1, side, qty, ot⟩).2.1.order_loc
        = none) ∧
    (∀ p existing, ot = OrderType.systemLevel p →
      0 < ((runOps ops).book.addOrderMatched
        ⟨(ot.generateId (runOps ops).ctr).1, side, qty, ot⟩).1.remaining_qty →
      ((runOps ops).book.addOrderMatched
        ⟨(ot.generateId (runOps ops).ctr).1, side, qty, ot⟩).2.1.get_order
        (ot.generateId (runOps ops).ctr).1 = some existing →
      existing.mergable
        ((runOps ops).book.addOrderMatched
          ⟨(ot.generateId (runOps ops).ctr).1, side, qty, ot⟩).1) := by
  obtain ⟨hB, hloc⟩ := runOps_EngInv ops hadd
  constructor
  · intro p hlim
    subst hlim
    rw [addOrderMatched_order_loc]
    cases hl : alookup ((OrderType.limit p).generateId (runOps ops).ctr).1
        (runOps ops).book.order_loc with
    | none => rfl
    | some v =>
      exact absurd (hloc _ (alookup_mem hl)) (lt_irrefl _)
  · intro p existing hsys hrem hget
    subst hsys
    obtain ⟨sp, lvl, hsp, hlv, hmem, hid2⟩ := get_order_decomp hget
    obtain ⟨s1, pr1⟩ := sp
    have hfields := addOrderMatched_inc_fields (runOps ops).book
      ⟨((OrderType.systemLevel p).generateId (runOps ops).ctr).1, side, qty,
        OrderType.systemLevel p⟩
    have hB1 := @addOrderMatched_BookSysInv (runOps ops).book
      ⟨((OrderType.systemLevel p).generateId (runOps ops).ctr).1,
        side, qty, OrderType.systemLevel p⟩ hB
    have hQ := BookSysInv_getBook (s := s1) hB1 ((s1, pr1).2, lvl)
      (alookup_mem hlv) existing hmem
    have hQ2 := hQ.2 p hid2
    have hsd : existing.side = s1 := hQ.1
    have hpr : pr1 = p := hQ2.2
    have hside : s1 = side := by
      by_cases hss : s1 = side
      · exact hss
      · exfalso
        have hso : s1 = side.opposite := by
          cases s1 <;> cases side <;> first | rfl | exact absurd rfl hss
        have hlv2 : alookup p
            (((runOps ops).book.addOrderMatched
              ⟨((OrderType.systemLevel p).generateId (runOps ops).ctr).1,
                side, qty, OrderType.systemLevel p⟩).2.1.getBook
              side.opposite).levels = some lvl := by
          have hlv1 : alookup pr1
              (((runOps ops).book.addOrderMatched
                ⟨((OrderType.systemLevel p).generateId (runOps ops).ctr).1,
                  side, qty, OrderType.systemLevel p⟩).2.1.getBook
                s1).levels = some lvl := hlv
          rw [hso, hpr] at hlv1
          exact hlv1
        have hcl := @addOrderMatched_opposite_cleared (runOps ops).book
          ⟨((OrderType.systemLevel p).generateId (runOps ops).ctr).1,
            side, qty, OrderType.systemLevel p⟩
          hq (ne_of_gt hrem) p ?_
        · exact Option.noConfusion (hlv2.symm.trans hcl)
        · cases side <;>
            simp [matchFilter, TradeOrder.fromRequest, inWindow]
    exact ⟨hsd.trans (hside.trans hfields.2.1.symm),
      hQ2.1.trans hfields.2.2.1.symm⟩

theorem assertion_unreachability_witness :
    (⟨OrderId.fromBytes 10, Side.bid, 5, 5, [], OrderType.systemLevel 10⟩ :
      TradeOrder).mergable
      ((runOps [EngineOp.add Side.bid 5
          (OrderType.systemLevel 10)]).book.addOrderMatched
        ⟨((OrderType.systemLevel 10).generateId
            (runOps [EngineOp.add Side.bid 5
              (OrderType.systemLevel 10)]).ctr).1,
          Side.bid, 3, OrderType.systemLevel 10⟩).1 :=
  (assertion_unreachability
    [EngineOp.add Side.bid 5 (OrderType.systemLevel 10)]
    (fun op hop => by
      rw [List.mem_singleton.mp hop]
      exact ⟨Side.bid, 5, OrderType.systemLevel 10, rfl⟩)
    Side.bid 3 (OrderType.systemLevel 10) (by norm_num)).2 10
    ⟨OrderId.fromBytes 10, Side.bid, 5, 5, [], OrderType.systemLevel 10⟩ rfl
    (by decide) (by decide)
